import Mathlib

/-!
# Verification of the gremlins.js orchestration core

Shallow embedding of the orchestration engine of gremlins.js:
the callback sequencer (`src/utils/executeInSeries.ts`), the service
injector (`src/utils/inject.ts`), the three scheduling strategies
(`src/strategies/allTogether.ts`, `src/strategies/bySpecies.ts`) and the
horde controller (`src/gremlinsHorde.ts`).

JavaScript arrays become Lean lists; the observable behaviour of a run
(callback invocations, completion-callback firings) is recorded as an
explicit event trace; `setTimeout` scheduling becomes an explicit task
queue consumed by a nondeterministic scheduler.
-/

namespace Gremlins

/-! ## Callback sequencer: `executeInSeries`

The sequencer receives a list of callbacks, a fixed argument array, a
context and a final callback `done`.  It clones the callback list, pushes
a step-advance continuation onto the (caller-owned) argument array, and
runs the callbacks one by one: a callback whose declared parameter count
(`callback.length`) equals the ORIGINAL argument count is synchronous and
is followed immediately by the next one; any other callback is treated as
asynchronous and sequencing resumes only when the callback invokes the
pushed continuation.  The embedding records each invocation together with
the argument list the callback received; an asynchronous callback either
invokes the continuation exactly once (`invokesCont = true`) or never
(`invokesCont = false`, which stalls the sequence), and the body of a
callback has no other effect observable by the sequencer. -/

/-- An argument passed to a callback: either one of the caller-supplied
values, or the step-advance continuation pushed by the sequencer. -/
inductive Arg (V : Type) where
  | val (v : V)
  | cont
deriving DecidableEq, Repr

/-- A callback as the sequencer observes it: an identifier, the declared
parameter count (JS `callback.length`), and whether its body invokes the
trailing continuation (exactly once) when one is expected. -/
structure Cb where
  id : Nat
  arity : Nat
  invokesCont : Bool
deriving DecidableEq, Repr

/-- Observable events of one sequencer run: a callback invocation
(with the argument list it received), or the firing of `done`. -/
inductive Ev (V : Type) where
  | call (id : Nat) (received : List (Arg V))
  | done
deriving DecidableEq, Repr

/-- The inner `iterator` of `executeInSeries`: on an empty list it fires
`done`; otherwise it shifts the first callback, applies it to `subArgs`,
and recurses immediately when the callback is synchronous
(`callback.length === length`), or via the callback's continuation call
when it is asynchronous.  The second component records whether the
sequence ran to completion (`done` fired); the third is the final value
of the `callbacksCopy` cell the shifts mutate (empty on completion, the
unprocessed suffix when the run stalls). -/
def iterator (V : Type) (length : Nat) (subArgs : List (Arg V)) :
    List Cb → List (Ev V) × Bool × List Cb
  | [] => ([Ev.done], true, [])
  | c :: rest =>
    if c.arity = length then
      let r := iterator V length subArgs rest
      (Ev.call c.id subArgs :: r.1, r.2)
    else if c.invokesCont then
      let r := iterator V length subArgs rest
      (Ev.call c.id subArgs :: r.1, r.2)
    else
      ([Ev.call c.id subArgs], false, rest)

/-- Result of a sequencer run: the event trace, whether `done` fired, the
final value of the caller's argument array, and the final value of the
caller's callback array. -/
structure ExecResult (V : Type) where
  events : List (Ev V)
  completed : Bool
  argsOut : List (Arg V)
  callbacksOut : List Cb
  callbacksCopyOut : List Cb
deriving DecidableEq, Repr

/-- `executeInSeries(callbacks, args, context, done)`:  records the
original argument count, clones the callback list (all shifting happens
on the clone, so `callbacksOut` is the untouched input), pushes the
continuation onto the caller's `args` array (`argsOut` is that mutated
array), and starts the iterator. -/
def executeInSeries (V : Type) (callbacks : List Cb) (args : List V) :
    ExecResult V :=
  let length := args.length
  let callbacksCopy := callbacks
  let argsPushed := args.map Arg.val ++ [Arg.cont]
  let r := iterator V length argsPushed callbacksCopy
  { events := r.1, completed := r.2.1, argsOut := argsPushed,
    callbacksOut := callbacks, callbacksCopyOut := r.2.2 }

/-- When every callback is synchronous (declared arity = argument count)
or well-behaved asynchronous (one extra parameter, invokes its
continuation), the iterator produces exactly one `call` event per
callback, in list order, followed by a single `done`. -/
theorem iterator_spec (V : Type) (length : Nat) (subArgs : List (Arg V)) :
    ∀ cbs : List Cb,
      (∀ c ∈ cbs, c.arity = length ∨ (c.arity = length + 1 ∧ c.invokesCont = true)) →
      iterator V length subArgs cbs
        = (cbs.map (fun c => Ev.call c.id subArgs) ++ [Ev.done], true, []) := by
  intro cbs
  induction cbs with
  | nil => intro _; rfl
  | cons c rest ih =>
    intro h
    rcases h c (List.mem_cons_self c rest) with hc | hc
    · simp [iterator, hc, ih fun d hd => h d (List.mem_cons_of_mem c hd)]
    · have hne : c.arity ≠ length := by omega
      simp [iterator, hne, hc.2,
        ih fun d hd => h d (List.mem_cons_of_mem c hd)]

/-- Every `call` event the iterator emits carries exactly the `subArgs`
list it was started with. -/
theorem iterator_call_args (V : Type) (length : Nat) (subArgs : List (Arg V)) :
    ∀ cbs : List Cb, ∀ i received,
      Ev.call i received ∈ (iterator V length subArgs cbs).1 →
      received = subArgs := by
  intro cbs
  induction cbs with
  | nil =>
    intro i received h
    simp [iterator] at h
  | cons c rest ih =>
    intro i received h
    by_cases hc : c.arity = length
    · simp [iterator, hc] at h
      rcases h with ⟨_, h⟩ | h
      · exact h
      · exact ih i received h
    · by_cases hk : c.invokesCont
      · simp [iterator, hc, hk] at h
        rcases h with ⟨_, h⟩ | h
        · exact h
        · exact ih i received h
      · simp [iterator, hc, hk] at h
        exact h.2

/-- C2: for every callback list, argument tuple and final continuation
given to the sequencer, if every callback is synchronous (declared
parameter count = argument count) or asynchronous (one extra trailing
continuation parameter, which the callback invokes exactly once), then
each callback is invoked exactly once, in input order, and the final
continuation fires exactly once after the last callback; on an empty
list the final continuation fires once with no callback invocation. -/
theorem executeInSeries_order_and_done (V : Type) (callbacks : List Cb)
    (args : List V)
    (h : ∀ c ∈ callbacks,
      c.arity = args.length ∨ (c.arity = args.length + 1 ∧ c.invokesCont = true)) :
    (executeInSeries V callbacks args).events
        = callbacks.map
            (fun c => Ev.call c.id (args.map Arg.val ++ [Arg.cont])) ++ [Ev.done]
      ∧ (executeInSeries V callbacks args).completed = true := by
  have hs := iterator_spec V args.length (args.map Arg.val ++ [Arg.cont]) callbacks h
  constructor
  · show (iterator V args.length (args.map Arg.val ++ [Arg.cont]) callbacks).1 = _
    rw [hs]
  · show (iterator V args.length (args.map Arg.val ++ [Arg.cont]) callbacks).2.1 = true
    rw [hs]

/-- Witness for C2: a mixed run with one synchronous callback (arity 1,
one fixed argument) followed by one asynchronous callback (arity 2)
invokes both, in order, then fires the final continuation. -/
theorem executeInSeries_order_and_done_witness :
    (executeInSeries Nat [⟨7, 1, false⟩, ⟨8, 2, true⟩] [5]).events
        = [Ev.call 7 [Arg.val 5, Arg.cont], Ev.call 8 [Arg.val 5, Arg.cont],
           Ev.done]
      ∧ (executeInSeries Nat [⟨7, 1, false⟩, ⟨8, 2, true⟩] [5]).completed = true := by
  have h := executeInSeries_order_and_done Nat [⟨7, 1, false⟩, ⟨8, 2, true⟩] [5]
    (by decide)
  simpa using h

/-- C9: the sequencer operates on a defensive copy of the callback list:
all shift-mutation lands on the clone (fully consumed when every callback
completes), the caller's list is unchanged when the call returns, and
handing the same registry list to a later run produces the same run. -/
theorem executeInSeries_preserves_callbacks (V : Type) (callbacks : List Cb)
    (args : List V)
    (h : ∀ c ∈ callbacks,
      c.arity = args.length ∨ (c.arity = args.length + 1 ∧ c.invokesCont = true)) :
    (executeInSeries V callbacks args).callbacksOut = callbacks
      ∧ (executeInSeries V callbacks args).callbacksCopyOut = []
      ∧ executeInSeries V (executeInSeries V callbacks args).callbacksOut args
          = executeInSeries V callbacks args := by
  refine ⟨rfl, ?_, rfl⟩
  have hs := iterator_spec V args.length (args.map Arg.val ++ [Arg.cont]) callbacks h
  show (iterator V args.length (args.map Arg.val ++ [Arg.cont]) callbacks).2.2 = []
  rw [hs]

/-- Witness for C9: a two-callback registry (one synchronous, one
asynchronous) is returned unchanged and can be re-run identically, while
the working clone was consumed. -/
theorem executeInSeries_preserves_callbacks_witness :
    (executeInSeries Nat [⟨1, 1, false⟩, ⟨2, 2, true⟩] [9]).callbacksOut
        = [⟨1, 1, false⟩, ⟨2, 2, true⟩]
      ∧ (executeInSeries Nat [⟨1, 1, false⟩, ⟨2, 2, true⟩] [9]).callbacksCopyOut = []
      ∧ executeInSeries Nat
          (executeInSeries Nat [⟨1, 1, false⟩, ⟨2, 2, true⟩] [9]).callbacksOut [9]
          = executeInSeries Nat [⟨1, 1, false⟩, ⟨2, 2, true⟩] [9] :=
  executeInSeries_preserves_callbacks Nat [⟨1, 1, false⟩, ⟨2, 2, true⟩] [9]
    (by decide)

/-- C10: the sequencer mutates the caller's argument array: exactly one
element (the step-advance continuation) is appended before the first
callback runs, so the array is one element longer on return, and every
invoked callback — synchronous ones included — receives the continuation
as trailing argument. -/
theorem executeInSeries_args_push (V : Type) (callbacks : List Cb)
    (args : List V) :
    (executeInSeries V callbacks args).argsOut
        = args.map Arg.val ++ [Arg.cont]
      ∧ (executeInSeries V callbacks args).argsOut.length = args.length + 1
      ∧ ∀ i received,
          Ev.call i received ∈ (executeInSeries V callbacks args).events →
          received = args.map Arg.val ++ [Arg.cont] := by
  refine ⟨rfl, by simp [executeInSeries], ?_⟩
  intro i received h
  exact iterator_call_args V args.length (args.map Arg.val ++ [Arg.cont])
    callbacks i received h

/-- Witness for C10: in a run with one synchronous callback (arity 0, no
fixed arguments), the argument array comes back one element longer and
the callback received the pushed continuation as its trailing argument. -/
theorem executeInSeries_args_push_witness :
    (executeInSeries Nat [⟨3, 0, false⟩] []).argsOut = [Arg.cont]
      ∧ (executeInSeries Nat [⟨3, 0, false⟩] []).argsOut.length = 0 + 1
      ∧ ([Arg.cont] : List (Arg Nat)) = [Arg.cont] := by
  have h := executeInSeries_args_push Nat [⟨3, 0, false⟩] []
  exact ⟨h.1, h.2.1, h.2.2 3 [Arg.cont] (by decide)⟩

/-! ## Service injector: `inject`

`inject(services, objects)` walks the target objects (outer loop) and the
service names (inner loop).  For each pair it first checks
`typeof objects[i][name] === "function"`; if the accessor exists it calls
it with no argument (`objects[i][name]()`) and, when that call returns a
falsy value, calls it again with the service value
(`objects[i][name](services[name])`).

A target is modelled as an association list from accessor names to the
value currently stored behind the accessor (`none` = nothing configured);
a name not in the list means the target has no such accessor.  The
function `truthy` models JavaScript truthiness of a stored value; the
no-argument accessor call returns the stored value, so the guard is falsy
exactly when the slot is `none` or holds a value with `truthy` false.
The accessor installs the value it is called with. -/

/-- Truthiness of the value returned by a no-argument accessor call. -/
def truthyOpt {A : Type} (truthy : A → Bool) : Option A → Bool
  | none => false
  | some a => truthy a

/-- Look up the accessor `name` on a target (`typeof` check + getter). -/
def findAccessor {A : Type} (name : String) :
    List (String × Option A) → Option (Option A)
  | [] => none
  | p :: rest => if p.1 = name then some p.2 else findAccessor name rest

/-- The accessor call with the service value: install it in the slot. -/
def setSlot {A : Type} : List (String × Option A) → String → A →
    List (String × Option A)
  | [], _, _ => []
  | p :: rest, name, v =>
    (if p.1 = name then (p.1, some v) else p) :: setSlot rest name v

/-- One accessor invocation performed by the injector: a getter-check
(`isSet = false`) or an installing call (`isSet = true`), on the target
with index `obj`, through the accessor `name`. -/
structure InjEv where
  isSet : Bool
  obj : Nat
  name : String
deriving DecidableEq, Repr

/-- Inner loop of `inject` for one target: iterate the service names in
order; skip a service whose accessor is missing; otherwise perform the
getter-check and, when it is falsy, the installing call. -/
def injectObj {A : Type} (truthy : A → Bool) (objIdx : Nat)
    (t : List (String × Option A)) :
    List (String × A) → List (String × Option A) × List InjEv
  | [] => (t, [])
  | (n, v) :: rest =>
    match findAccessor n t with
    | none => injectObj truthy objIdx t rest
    | some s =>
      if truthyOpt truthy s then
        let r := injectObj truthy objIdx t rest
        (r.1, ⟨false, objIdx, n⟩ :: r.2)
      else
        let r := injectObj truthy objIdx (setSlot t n v) rest
        (r.1, ⟨false, objIdx, n⟩ :: ⟨true, objIdx, n⟩ :: r.2)

/-- Outer loop of `inject`: process the targets in order. -/
def injectAux {A : Type} (truthy : A → Bool) (services : List (String × A))
    (i : Nat) : List (List (String × Option A)) →
      List (List (String × Option A)) × List InjEv
  | [] => ([], [])
  | t :: rest =>
    let r1 := injectObj truthy i t services
    let r2 := injectAux truthy services (i + 1) rest
    (r1.1 :: r2.1, r1.2 ++ r2.2)

/-- `inject(services, objects)` of `src/utils/inject.ts`, returning the
updated targets and the chronological accessor-call trace. -/
def inject {A : Type} (truthy : A → Bool) (services : List (String × A))
    (objects : List (List (String × Option A))) :
    List (List (String × Option A)) × List InjEv :=
  injectAux truthy services 0 objects

theorem findAccessor_setSlot_ne {A : Type} (t : List (String × Option A))
    (n m : String) (v : A) (h : n ≠ m) :
    findAccessor n (setSlot t m v) = findAccessor n t := by
  induction t with
  | nil => rfl
  | cons p rest ih =>
    by_cases hm : p.1 = m
    · have hn : ¬p.1 = n := by rw [hm]; exact fun hh => h hh.symm
      simp [setSlot, findAccessor, hm, hn, Ne.symm h]
      exact ih
    · by_cases hn : p.1 = n
      · simp [setSlot, findAccessor, hm, hn, h]
      · simp [setSlot, findAccessor, hm, hn]
        exact ih

theorem findAccessor_setSlot_self {A : Type} (t : List (String × Option A))
    (n : String) (v : A) (s : Option A) (h : findAccessor n t = some s) :
    findAccessor n (setSlot t n v) = some (some v) := by
  induction t with
  | nil => simp [findAccessor] at h
  | cons p rest ih =>
    by_cases hp : p.1 = n
    · simp [setSlot, findAccessor, hp]
    · simp [findAccessor, hp] at h
      simp [setSlot, findAccessor, hp]
      exact ih h

/-- Accessor presence is unchanged by an installing call. -/
theorem findAccessor_setSlot_none {A : Type} (t : List (String × Option A))
    (n m : String) (v : A) :
    findAccessor n (setSlot t m v) = none ↔ findAccessor n t = none := by
  induction t with
  | nil => simp [setSlot]
  | cons p rest ih =>
    by_cases hm : p.1 = m
    · by_cases hn : p.1 = n
      · have hmn : m = n := by rw [← hm, hn]
        simp [setSlot, findAccessor, hm, hn, hmn]
      · have hmn : ¬m = n := by rw [← hm]; exact fun hh => hn hh
        simp [setSlot, findAccessor, hm, hn, hmn]
        exact ih
    · by_cases hn : p.1 = n
      · have hmn : ¬n = m := by rw [← hn]; exact hm
        simp [setSlot, findAccessor, hm, hn, hmn]
      · simp [setSlot, findAccessor, hm, hn]
        exact ih

/-- Every accessor call of the inner loop targets the processed object
and one of the service names. -/
theorem injectObj_events {A : Type} (truthy : A → Bool) (idx : Nat)
    (svcs : List (String × A)) :
    ∀ t, ∀ e ∈ (injectObj truthy idx t svcs).2,
      e.obj = idx ∧ e.name ∈ svcs.map Prod.fst := by
  induction svcs with
  | nil =>
    intro t e he
    simp [injectObj] at he
  | cons p rest ih =>
    intro t e he
    obtain ⟨n, v⟩ := p
    cases hf : findAccessor n t with
    | none =>
      rw [injectObj, hf] at he
      rcases ih t e he with ⟨h1, h2⟩
      exact ⟨h1, by simp [h2]⟩
    | some s =>
      by_cases ht : truthyOpt truthy s = true
      · rw [injectObj, hf] at he
        simp [ht] at he
        rcases he with he | he
        · simp [he]
        · rcases ih t e he with ⟨h1, h2⟩
          exact ⟨h1, by simp [h2]⟩
      · rw [injectObj, hf] at he
        simp [ht] at he
        rcases he with he | he | he
        · simp [he]
        · simp [he]
        · rcases ih (setSlot t n v) e he with ⟨h1, h2⟩
          exact ⟨h1, by simp [h2]⟩

/-- Setter discipline of the inner loop: when the service names are
distinct, every accessor call hits an accessor that exists on the
original target, and an installing call happens only on a slot whose
getter-check on the original target was falsy. -/
theorem injectObj_discipline {A : Type} (truthy : A → Bool) (idx : Nat) :
    ∀ svcs : List (String × A), (svcs.map Prod.fst).Nodup →
      ∀ t, ∀ e ∈ (injectObj truthy idx t svcs).2,
        ∃ s, findAccessor e.name t = some s
          ∧ (e.isSet = true → truthyOpt truthy s = false) := by
  intro svcs
  induction svcs with
  | nil =>
    intro _ t e he
    simp [injectObj] at he
  | cons p rest ih =>
    intro hnd t e he
    obtain ⟨n, v⟩ := p
    have hnd0 : (n :: rest.map Prod.fst).Nodup := by simpa using hnd
    have hnd2 : (rest.map Prod.fst).Nodup := (List.nodup_cons.mp hnd0).2
    have hnotin : n ∉ rest.map Prod.fst := (List.nodup_cons.mp hnd0).1
    cases hf : findAccessor n t with
    | none =>
      rw [injectObj, hf] at he
      exact ih hnd2 t e he
    | some s =>
      by_cases ht : truthyOpt truthy s = true
      · rw [injectObj, hf] at he
        simp [ht] at he
        rcases he with he | he
        · exact ⟨s, by simp [he, hf]⟩
        · exact ih hnd2 t e he
      · rw [injectObj, hf] at he
        simp [ht] at he
        rcases he with he | he | he
        · exact ⟨s, by simp [he, hf]⟩
        · refine ⟨s, by simp [he, hf], fun _ => ?_⟩
          simpa using ht
        · have hname : e.name ≠ n := by
            intro hh
            rcases injectObj_events truthy idx rest (setSlot t n v) e he
              with ⟨_, h2⟩
            rw [hh] at h2
            exact hnotin h2
          rcases ih hnd2 (setSlot t n v) e he with ⟨s2, hs2, hforce⟩
          rw [findAccessor_setSlot_ne t e.name n v hname] at hs2
          exact ⟨s2, hs2, hforce⟩

/-- The inner loop only installs truthy service values, so a slot whose
getter-check is truthy stays truthy. -/
theorem injectObj_preserves_truthy {A : Type} (truthy : A → Bool) (idx : Nat) :
    ∀ svcs : List (String × A), (∀ p ∈ svcs, truthy p.2 = true) →
      ∀ t k, (∀ s, findAccessor k t = some s → truthyOpt truthy s = true) →
      ∀ s, findAccessor k (injectObj truthy idx t svcs).1 = some s →
        truthyOpt truthy s = true := by
  intro svcs
  induction svcs with
  | nil =>
    intro _ t k hk s hs
    exact hk s (by simpa [injectObj] using hs)
  | cons p rest ih =>
    intro htr t k hk s hs
    obtain ⟨n, v⟩ := p
    have htr2 : ∀ q ∈ rest, truthy q.2 = true := fun q hq =>
      htr q (List.mem_cons_of_mem _ hq)
    cases hf : findAccessor n t with
    | none =>
      rw [injectObj, hf] at hs
      exact ih htr2 t k hk s hs
    | some s0 =>
      by_cases ht : truthyOpt truthy s0 = true
      · rw [injectObj, hf] at hs
        simp [ht] at hs
        exact ih htr2 t k hk s hs
      · rw [injectObj, hf] at hs
        simp [ht] at hs
        refine ih htr2 (setSlot t n v) k ?_ s hs
        intro s1 hs1
        by_cases hkn : k = n
        · rw [hkn, findAccessor_setSlot_self t n v s0 hf] at hs1
          have hv : truthy v = true := htr (n, v) (List.mem_cons_self _ _)
          injection hs1 with h
          rw [← h]
          simpa [truthyOpt] using hv
        · rw [findAccessor_setSlot_ne t k n v hkn] at hs1
          exact hk s1 hs1

/-- The inner loop never creates accessors: a name absent from the
target stays absent. -/
theorem injectObj_none_mono {A : Type} (truthy : A → Bool) (idx : Nat) :
    ∀ svcs : List (String × A), ∀ t k, findAccessor k t = none →
      findAccessor k (injectObj truthy idx t svcs).1 = none := by
  intro svcs
  induction svcs with
  | nil =>
    intro t k hk
    simpa [injectObj] using hk
  | cons p rest ih =>
    intro t k hk
    obtain ⟨n, v⟩ := p
    cases hf : findAccessor n t with
    | none =>
      rw [injectObj, hf]
      exact ih t k hk
    | some s0 =>
      by_cases ht : truthyOpt truthy s0 = true
      · rw [injectObj, hf]
        simp [ht]
        exact ih t k hk
      · rw [injectObj, hf]
        simp [ht]
        refine ih (setSlot t n v) k ?_
        exact (findAccessor_setSlot_none t k n v).mpr hk

/-- After the inner loop with truthy service values, every serviced slot
that exists on the target reports a truthy getter-check. -/
theorem injectObj_establishes {A : Type} (truthy : A → Bool) (idx : Nat) :
    ∀ svcs : List (String × A), (∀ p ∈ svcs, truthy p.2 = true) →
      ∀ t, ∀ p ∈ svcs, ∀ s,
        findAccessor p.1 (injectObj truthy idx t svcs).1 = some s →
        truthyOpt truthy s = true := by
  intro svcs
  induction svcs with
  | nil =>
    intro _ t p hp
    simp at hp
  | cons q rest ih =>
    intro htr t p hp s hs
    obtain ⟨n, v⟩ := q
    have htr2 : ∀ r ∈ rest, truthy r.2 = true := fun r hr =>
      htr r (List.mem_cons_of_mem _ hr)
    rcases List.mem_cons.mp hp with hp | hp
    · subst hp
      dsimp only at hs
      cases hf : findAccessor n t with
      | none =>
        rw [injectObj, hf] at hs
        rw [injectObj_none_mono truthy idx rest t n hf] at hs
        exact absurd hs (by simp)
      | some s0 =>
        by_cases ht : truthyOpt truthy s0 = true
        · rw [injectObj, hf] at hs
          simp only [ht, if_pos] at hs
          refine injectObj_preserves_truthy truthy idx rest htr2 t n ?_ s hs
          intro s1 hs1
          rw [hf] at hs1
          injection hs1 with h
          rw [← h]
          exact ht
        · rw [injectObj, hf] at hs
          simp only [ht, if_neg, Bool.false_eq_true, not_false_iff] at hs
          refine injectObj_preserves_truthy truthy idx rest htr2
            (setSlot t n v) n ?_ s hs
          intro s1 hs1
          rw [findAccessor_setSlot_self t n v s0 hf] at hs1
          injection hs1 with h
          rw [← h]
          simpa [truthyOpt] using htr (n, v) (List.mem_cons_self _ _)
    · cases hf : findAccessor n t with
      | none =>
        rw [injectObj, hf] at hs
        exact ih htr2 t p hp s hs
      | some s0 =>
        by_cases ht : truthyOpt truthy s0 = true
        · rw [injectObj, hf] at hs
          simp only [ht, if_pos] at hs
          exact ih htr2 t p hp s hs
        · rw [injectObj, hf] at hs
          simp only [ht, if_neg, Bool.false_eq_true, not_false_iff] at hs
          exact ih htr2 (setSlot t n v) p hp s hs

/-- On a target whose serviced slots all report truthy getter-checks,
the inner loop changes nothing and performs no installing call. -/
theorem injectObj_fixpoint {A : Type} (truthy : A → Bool) (idx : Nat) :
    ∀ svcs : List (String × A), ∀ t,
      (∀ p ∈ svcs, ∀ s, findAccessor p.1 t = some s →
        truthyOpt truthy s = true) →
      (injectObj truthy idx t svcs).1 = t
        ∧ ∀ e ∈ (injectObj truthy idx t svcs).2, e.isSet = false := by
  intro svcs
  induction svcs with
  | nil =>
    intro t _
    exact ⟨rfl, by simp [injectObj]⟩
  | cons q rest ih =>
    intro t hQ
    obtain ⟨n, v⟩ := q
    have hQ2 : ∀ p ∈ rest, ∀ s, findAccessor p.1 t = some s →
        truthyOpt truthy s = true :=
      fun p hp => hQ p (List.mem_cons_of_mem _ hp)
    cases hf : findAccessor n t with
    | none =>
      rw [injectObj, hf]
      exact ih t hQ2
    | some s0 =>
      have ht : truthyOpt truthy s0 = true :=
        hQ (n, v) (List.mem_cons_self _ _) s0 hf
      rw [injectObj, hf]
      simp only [ht, if_pos]
      refine ⟨(ih t hQ2).1, ?_⟩
      intro e he
      simp at he
      rcases he with he | he
      · simp [he]
      · exact (ih t hQ2).2 e he

/-- Every accessor call of `inject` belongs to one of the targets, hits
an accessor that exists on that target, and installs only where that
target's getter-check was falsy (service names distinct). -/
theorem injectAux_events {A : Type} (truthy : A → Bool)
    (svcs : List (String × A)) (hnd : (svcs.map Prod.fst).Nodup) :
    ∀ objs : List (List (String × Option A)), ∀ i,
      ∀ e ∈ (injectAux truthy svcs i objs).2,
        ∃ j t, objs.get? j = some t ∧ e.obj = i + j
          ∧ ∃ s, findAccessor e.name t = some s
            ∧ (e.isSet = true → truthyOpt truthy s = false) := by
  intro objs
  induction objs with
  | nil =>
    intro i e he
    simp [injectAux] at he
  | cons t rest ih =>
    intro i e he
    rw [injectAux] at he
    rcases List.mem_append.mp he with he | he
    · refine ⟨0, t, by simp, ?_, ?_⟩
      · simpa using (injectObj_events truthy i svcs t e he).1
      · exact injectObj_discipline truthy i svcs hnd t e he
    · rcases ih (i + 1) e he with ⟨j, t2, hget, hobj, hrest⟩
      exact ⟨j + 1, t2, by simpa using hget, by omega, hrest⟩

/-- After `inject` with truthy service values, every target reports a
truthy getter-check on every serviced slot it has. -/
theorem injectAux_establishes {A : Type} (truthy : A → Bool)
    (svcs : List (String × A)) (htr : ∀ p ∈ svcs, truthy p.2 = true) :
    ∀ objs : List (List (String × Option A)), ∀ i,
      ∀ t1 ∈ (injectAux truthy svcs i objs).1, ∀ p ∈ svcs, ∀ s,
        findAccessor p.1 t1 = some s → truthyOpt truthy s = true := by
  intro objs
  induction objs with
  | nil =>
    intro i t1 ht1
    simp [injectAux] at ht1
  | cons t rest ih =>
    intro i t1 ht1 p hp s hs
    rw [injectAux] at ht1
    rcases List.mem_cons.mp ht1 with ht1 | ht1
    · subst ht1
      exact injectObj_establishes truthy i svcs htr t p hp s hs
    · exact ih (i + 1) t1 ht1 p hp s hs

/-- On targets whose serviced slots all report truthy getter-checks,
`inject` changes nothing and performs no installing call. -/
theorem injectAux_fixpoint {A : Type} (truthy : A → Bool)
    (svcs : List (String × A)) :
    ∀ objs : List (List (String × Option A)), ∀ i,
      (∀ t ∈ objs, ∀ p ∈ svcs, ∀ s, findAccessor p.1 t = some s →
        truthyOpt truthy s = true) →
      (injectAux truthy svcs i objs).1 = objs
        ∧ ∀ e ∈ (injectAux truthy svcs i objs).2, e.isSet = false := by
  intro objs
  induction objs with
  | nil =>
    intro i _
    exact ⟨rfl, by simp [injectAux]⟩
  | cons t rest ih =>
    intro i hQ
    have hQt : ∀ p ∈ svcs, ∀ s, findAccessor p.1 t = some s →
        truthyOpt truthy s = true := hQ t (List.mem_cons_self _ _)
    have hQr : ∀ t2 ∈ rest, ∀ p ∈ svcs, ∀ s, findAccessor p.1 t2 = some s →
        truthyOpt truthy s = true :=
      fun t2 ht2 => hQ t2 (List.mem_cons_of_mem _ ht2)
    rw [injectAux]
    refine ⟨?_, ?_⟩
    · rw [(injectObj_fixpoint truthy i svcs t hQt).1, (ih (i + 1) hQr).1]
    · intro e he
      rcases List.mem_append.mp he with he | he
      · exact (injectObj_fixpoint truthy i svcs t hQt).2 e he
      · exact (ih (i + 1) hQr).2 e he

/-- C6: the injector calls a target's same-named accessor with the
service value only if the no-argument getter-check on that target
reported falsy; a target lacking the accessor is skipped entirely; and
injection is idempotent: after injecting truthy service values once,
injecting the same services again into the resulting targets performs no
installing call and leaves the targets unchanged. -/
theorem inject_contract {A : Type} (truthy : A → Bool)
    (services : List (String × A))
    (objects : List (List (String × Option A)))
    (hnd : (services.map Prod.fst).Nodup)
    (htr : ∀ p ∈ services, truthy p.2 = true) :
    (∀ e ∈ (inject truthy services objects).2,
        ∃ t, objects.get? e.obj = some t
          ∧ ∃ s, findAccessor e.name t = some s
            ∧ (e.isSet = true → truthyOpt truthy s = false))
      ∧ (∀ j t n, objects.get? j = some t → findAccessor n t = none →
          ∀ e ∈ (inject truthy services objects).2,
            e.obj = j → e.name ≠ n)
      ∧ (inject truthy services (inject truthy services objects).1).1
          = (inject truthy services objects).1
      ∧ (∀ e ∈ (inject truthy services (inject truthy services objects).1).2,
          e.isSet = false) := by
  have hev := injectAux_events truthy services hnd objects 0
  have hfix := injectAux_fixpoint truthy services
    (injectAux truthy services 0 objects).1 0
    (fun t ht => injectAux_establishes truthy services htr objects 0 t ht)
  refine ⟨?_, ?_, hfix.1, hfix.2⟩
  · intro e he
    rcases hev e he with ⟨j, t, hget, hobj, hs⟩
    refine ⟨t, ?_, hs⟩
    rw [hobj]
    simpa using hget
  · intro j t n hget hnone e he hobj hname
    rcases hev e he with ⟨j2, t2, hget2, hobj2, s, hs, _⟩
    have hj : j2 = j := by omega
    rw [hj, hget] at hget2
    injection hget2 with h
    rw [← h, hname, hnone] at hs
    exact absurd hs (by simp)

/-- Witness for C6: injecting a logger and a randomizer (both truthy)
into two targets, then injecting them again into the result, leaves the
targets exactly as after the first injection. -/
theorem inject_contract_witness :
    (inject (fun a : Nat => a != 0) [("logger", 1), ("randomizer", 2)]
        (inject (fun a : Nat => a != 0) [("logger", 1), ("randomizer", 2)]
          [[("logger", none), ("randomizer", some 7)], [("gizmo", none)]]).1).1
      = (inject (fun a : Nat => a != 0) [("logger", 1), ("randomizer", 2)]
          [[("logger", none), ("randomizer", some 7)], [("gizmo", none)]]).1 :=
  (inject_contract (fun a : Nat => a != 0) [("logger", 1), ("randomizer", 2)]
    [[("logger", none), ("randomizer", some 7)], [("gizmo", none)]]
    (by decide) (by decide)).2.2.1

/-! ## Distribution strategy: `getUniformDistribution` and `pickGremlin`

`pickGremlin(gremlins, distribution)` draws `random` in [0, 1) from the
randomizer and walks the gremlin list, accumulating `chance +=
distribution[i]` and returning `gremlins[i]` as soon as `random <=
chance`; if the loop falls through it returns a no-op function.  When the
distribution list is shorter than the gremlin list, the JavaScript read
`distribution[i]` yields `undefined` and the accumulator becomes `NaN`,
which every subsequent comparison rejects; the accumulator is therefore
modelled as `Option ℚ` with `none` for `NaN`. -/

/-- `getUniformDistribution(gremlins)`: the empty list for no gremlins,
otherwise one share of `1 / length` per gremlin. -/
def getUniformDistribution (gremlins : List Nat) : List ℚ :=
  if gremlins.length = 0 then []
  else List.replicate gremlins.length (1 / (gremlins.length : ℚ))

/-- `chance += distribution[i]` with NaN absorption: adding an absent
(`undefined`) weight, or adding to NaN, gives NaN. -/
def nanAdd : Option ℚ → Option ℚ → Option ℚ
  | none, _ => none
  | some _, none => none
  | some c, some d => some (c + d)

/-- The JavaScript comparison `random <= chance`: false whenever the
accumulator is NaN. -/
def nanLe (random : ℚ) : Option ℚ → Bool
  | some c => decide (random ≤ c)
  | none => false

/-- The accumulation loop of `pickGremlin`: `i` is the loop index, `rem`
the remaining iterations (`count - i`), `chance` the accumulator
(`none` = NaN).  Returns the index of the selected gremlin, or `none`
when the loop falls through. -/
def pickGremlinAux (random : ℚ) (dist : List ℚ) :
    Nat → Nat → Option ℚ → Option Nat
  | _, 0, _ => none
  | i, rem + 1, chance =>
    if nanLe random (nanAdd chance dist[i]?) then some i
    else pickGremlinAux random dist (i + 1) rem (nanAdd chance dist[i]?)

/-- Outcome of one gremlin pick. -/
inductive PickResult where
  | gremlin (g : Nat)
  | noop
  | outOfBounds
deriving DecidableEq, Repr

/-- `pickGremlin(gremlins, distribution)` for a given randomizer draw:
run the loop over the gremlin indices and return the selected gremlin,
the fall-through no-op, or — were the selected index invalid —
`outOfBounds` (shown unreachable below). -/
def pickGremlin (gremlins : List Nat) (dist : List ℚ) (random : ℚ) :
    PickResult :=
  match pickGremlinAux random dist 0 gremlins.length (some 0) with
  | some i =>
    match gremlins[i]? with
    | some g => PickResult.gremlin g
    | none => PickResult.outOfBounds
  | none => PickResult.noop

/-- The loop can only select an index among its iterations. -/
theorem pickGremlinAux_lt (random : ℚ) (dist : List ℚ) :
    ∀ rem i chance k, pickGremlinAux random dist i rem chance = some k →
      i ≤ k ∧ k < i + rem := by
  intro rem
  induction rem with
  | zero =>
    intro i chance k h
    simp [pickGremlinAux] at h
  | succ rem ih =>
    intro i chance k h
    rw [pickGremlinAux] at h
    by_cases hc : nanLe random (nanAdd chance dist[i]?) = true
    · rw [if_pos hc] at h
      injection h with h
      omega
    · rw [if_neg hc] at h
      rcases ih (i + 1) _ k h with ⟨h1, h2⟩
      omega

/-- Once the accumulator is NaN, the loop falls through. -/
theorem pickGremlinAux_nan (random : ℚ) (dist : List ℚ) :
    ∀ rem i, pickGremlinAux random dist i rem none = none := by
  intro rem
  induction rem with
  | zero =>
    intro i
    rfl
  | succ rem ih =>
    intro i
    rw [pickGremlinAux]
    simp [nanAdd, nanLe]
    exact ih (i + 1)

/-- With nonnegative weights, a draw strictly above the reachable
cumulative weight makes the loop fall through. -/
theorem pickGremlinAux_over (random : ℚ) (dist : List ℚ)
    (hpos : ∀ d ∈ dist, 0 ≤ d) :
    ∀ rem i c, (c + ((dist.drop i).take rem).sum < random) →
      pickGremlinAux random dist i rem (some c) = none := by
  intro rem
  induction rem with
  | zero =>
    intro i c _
    rfl
  | succ rem ih =>
    intro i c hover
    rw [pickGremlinAux]
    cases hd : dist[i]? with
    | none =>
      simp [hd, nanAdd, nanLe]
      exact pickGremlinAux_nan random dist rem (i + 1)
    | some d =>
      have hdrop : dist.drop i = d :: dist.drop (i + 1) := by
        have hlt : i < dist.length := by
          by_contra hge
          rw [List.getElem?_eq_none (by omega)] at hd
          exact absurd hd (by simp)
        rw [List.drop_eq_getElem_cons hlt]
        congr 1
        have hget := List.getElem?_eq_getElem hlt
        rw [hd] at hget
        injection hget with h
        exact h.symm
      have hrest : ∀ e ∈ (dist.drop (i + 1)).take rem, 0 ≤ e := by
        intro e he
        exact hpos e (List.mem_of_mem_drop (List.mem_of_mem_take he))
      have hsum : 0 ≤ ((dist.drop (i + 1)).take rem).sum :=
        List.sum_nonneg hrest
      have htake : ((dist.drop i).take (rem + 1)).sum
          = d + ((dist.drop (i + 1)).take rem).sum := by
        rw [hdrop]
        simp
      have hnotle : ¬random ≤ c + d := by
        rw [htake] at hover
        intro hle
        nlinarith
      simp [hd, nanAdd, nanLe, hnotle]
      exact ih (i + 1) (c + d) (by rw [htake] at hover; linarith)

/-- C8: for every gremlin list, every weight list (including ones that
are too short or do not sum to 1) and every draw, the pick never indexes
out of bounds — it returns a registered gremlin or the no-op fallback —
and with nonnegative weights a draw strictly above the accumulated
cumulative weight yields the no-op fallback. -/
theorem pickGremlin_safe (gremlins : List Nat) (dist : List ℚ) (random : ℚ) :
    pickGremlin gremlins dist random ≠ PickResult.outOfBounds
      ∧ ((∀ d ∈ dist, 0 ≤ d) →
          (dist.take gremlins.length).sum < random →
          pickGremlin gremlins dist random = PickResult.noop) := by
  constructor
  · intro hcon
    cases hp : pickGremlinAux random dist 0 gremlins.length (some 0) with
    | none =>
      rw [pickGremlin, hp] at hcon
      exact PickResult.noConfusion hcon
    | some i =>
      have hb := (pickGremlinAux_lt random dist gremlins.length 0 (some 0) i hp).2
      have hlt : i < gremlins.length := by omega
      rw [pickGremlin, hp] at hcon
      dsimp only at hcon
      rw [List.getElem?_eq_getElem hlt] at hcon
      exact PickResult.noConfusion hcon
  · intro hpos hover
    rw [pickGremlin]
    rw [pickGremlinAux_over random dist hpos gremlins.length 0 0
      (by simpa using hover)]

/-- Witness for C8: two gremlins with a malformed weight list `[0.2,
0.3]` (sums to 0.5) and a draw of 0.9: the pick is the no-op fallback,
not an out-of-bounds access. -/
theorem pickGremlin_safe_witness :
    pickGremlin [4, 5] [(2 : ℚ)/10, 3/10] (9/10) ≠ PickResult.outOfBounds
      ∧ pickGremlin [4, 5] [(2 : ℚ)/10, 3/10] (9/10) = PickResult.noop :=
  ⟨(pickGremlin_safe [4, 5] [(2 : ℚ)/10, 3/10] (9/10)).1,
   (pickGremlin_safe [4, 5] [(2 : ℚ)/10, 3/10] (9/10)).2
     (by intro d hd; simp at hd; rcases hd with h | h <;> rw [h] <;> norm_num)
     (by norm_num)⟩

/-- C7: with two gremlins A and B under the default uniform distribution
(cumulative shares 0.5 and 1.0), the draws 0.1, 0.6 and 0.9 select A,
then B, then B. -/
theorem pickGremlin_uniform_two :
    pickGremlin [0, 1] (getUniformDistribution [0, 1]) (1/10)
        = PickResult.gremlin 0
      ∧ pickGremlin [0, 1] (getUniformDistribution [0, 1]) (6/10)
          = PickResult.gremlin 1
      ∧ pickGremlin [0, 1] (getUniformDistribution [0, 1]) (9/10)
          = PickResult.gremlin 1 := by
  refine ⟨?_, ?_, ?_⟩ <;>
    norm_num [pickGremlin, pickGremlinAux, getUniformDistribution,
      nanAdd, nanLe]

/-! ## Scheduling strategies as event-loop machines

Each strategy closure holds a `stopped` flag and a `doneCallback` cell.
Its body starts a chain of steps; each step checks `stopped`, then the
repetition bound, performs its work and schedules the next step with
`setTimeout`.  `stop()` sets `stopped` and schedules `callDone` with
`setTimeout(callDone, 4)`; `callDone` invokes `doneCallback` if it is
still a function and nulls it.

The embedding makes the timer queue explicit: a machine state holds the
`stopped` flag, whether `doneCallback` is still set, the pending timer
tasks, the `gremlinsCopy` working list (used by the by-species strategy
only) and the observable trace (work starts and completion firings).  A
schedule is a list of actions: run any pending timer task (timers may
fire in any order, since the strategies mix delays), or call `stop()`.
The work performed inside one step (its gremlin pass through
`executeInSeries`, modelled separately above) is abstracted into a single
`work` event, emitted when the step starts. -/

/-- Observable strategy events: a wave/step/action start (with its
indices) or a firing of the completion callback. -/
inductive TEv where
  | work (a b : Nat)
  | doneFired
deriving DecidableEq, Repr

/-- Is the event a completion firing? -/
def isDoneEv : TEv → Bool
  | TEv.doneFired => true
  | TEv.work _ _ => false

/-- Is the event a work start? -/
def isWorkEv : TEv → Bool
  | TEv.doneFired => false
  | TEv.work _ _ => true

/-- Number of completion firings in a trace. -/
def countDone (tr : List TEv) : Nat := (tr.filter isDoneEv).length

/-- Number of work starts in a trace. -/
def countWork (tr : List TEv) : Nat := (tr.filter isWorkEv).length

/-- State of one strategy run: the `stopped` flag, whether
`doneCallback` is still non-null, the pending timer tasks, the
`gremlinsCopy` list (by-species only) and the trace so far. -/
structure MachState (τ : Type) where
  stopped : Bool
  doneCb : Bool
  queue : List τ
  rem : List Nat
  trace : List TEv
deriving DecidableEq, Repr

/-- `callDone()`: invoke `doneCallback` if it is still a function, then
null it — so at most one of the possibly many scheduled `callDone`
timers actually fires the completion callback. -/
def callDone {τ : Type} (s : MachState τ) : MachState τ :=
  if s.doneCb then
    { s with doneCb := false, trace := s.trace ++ [TEv.doneFired] }
  else { s with doneCb := false }

/-- `const nb = params && params.nb ? params.nb : config.nb`: the `nb`
override is taken from the parameters record only when present and
truthy (nonzero). -/
def resolveNb (paramsNb : Option Nat) (configNb : Nat) : Nat :=
  match paramsNb with
  | some n => if n ≠ 0 then n else configNb
  | none => configNb

/-- A scheduler action: fire the pending timer task at position `k` of
the queue (a no-op when there is none), or call the strategy's
`stop()`. -/
inductive Act where
  | runT (k : Nat)
  | stopA
deriving DecidableEq, Repr

/-- One scheduler action on a machine whose task semantics is `proc` and
whose `callDone` timer task is `cdt`: `stop()` sets the `stopped` flag
and schedules `callDone`; firing a timer removes the task from the queue
and processes it. -/
def doAct {τ : Type} (proc : MachState τ → τ → MachState τ) (cdt : τ)
    (s : MachState τ) : Act → MachState τ
  | Act.runT k =>
    match s.queue[k]? with
    | none => s
    | some t => proc { s with queue := s.queue.eraseIdx k } t
  | Act.stopA => { s with stopped := true, queue := s.queue ++ [cdt] }

/-- Run a whole schedule of actions. -/
def exec {τ : Type} (proc : MachState τ → τ → MachState τ) (cdt : τ) :
    MachState τ → List Act → MachState τ
  | s, [] => s
  | s, a :: rest => exec proc cdt (doAct proc cdt s a) rest

/-- `doneCallback` firings in flight: completion firings recorded plus
the still-armed callback. -/
def donePotential {τ : Type} (s : MachState τ) : Nat :=
  countDone s.trace + (if s.doneCb then 1 else 0)

theorem countDone_append (a b : List TEv) :
    countDone (a ++ b) = countDone a + countDone b := by
  simp [countDone, List.filter_append]

theorem countWork_append (a b : List TEv) :
    countWork (a ++ b) = countWork a + countWork b := by
  simp [countWork, List.filter_append]

theorem callDone_potential {τ : Type} (s : MachState τ) :
    donePotential (callDone s) = donePotential s := by
  by_cases h : s.doneCb
  · simp [callDone, donePotential, h, countDone_append, countDone, isDoneEv]
  · simp [callDone, donePotential, h]

theorem callDone_countWork {τ : Type} (s : MachState τ) :
    countWork (callDone s).trace = countWork s.trace := by
  by_cases h : s.doneCb
  · simp [callDone, h, countWork_append, countWork, isDoneEv, isWorkEv]
  · simp [callDone, h]

theorem callDone_stopped {τ : Type} (s : MachState τ) :
    (callDone s).stopped = s.stopped := by
  by_cases h : s.doneCb <;> simp [callDone, h]

theorem exec_append {τ : Type} (proc : MachState τ → τ → MachState τ)
    (cdt : τ) :
    ∀ (a b : List Act) (s : MachState τ),
      exec proc cdt s (a ++ b) = exec proc cdt (exec proc cdt s a) b := by
  intro a
  induction a with
  | nil => intro b s; rfl
  | cons x rest ih =>
    intro b s
    rw [List.cons_append, exec, exec, ih]

/-- If every task preserves the completion potential, so does every
schedule. -/
theorem exec_potential {τ : Type} (proc : MachState τ → τ → MachState τ)
    (cdt : τ)
    (hp : ∀ s t, donePotential (proc s t) = donePotential s) :
    ∀ (acts : List Act) (s : MachState τ),
      donePotential (exec proc cdt s acts) = donePotential s := by
  intro acts
  induction acts with
  | nil => intro s; rfl
  | cons a rest ih =>
    intro s
    rw [exec, ih]
    cases a with
    | runT k =>
      cases hq : s.queue[k]? with
      | none => simp [doAct, hq]
      | some t =>
        simp [doAct, hq]
        rw [hp]
        simp [donePotential]
    | stopA => simp [doAct, donePotential]

/-- If every task leaves a stopped machine stopped and emits no work on
it, work is frozen from the moment `stop()` was called. -/
theorem exec_frozen {τ : Type} (proc : MachState τ → τ → MachState τ)
    (cdt : τ)
    (hf : ∀ s t, s.stopped = true →
      countWork (proc s t).trace = countWork s.trace
        ∧ (proc s t).stopped = true) :
    ∀ (acts : List Act) (s : MachState τ), s.stopped = true →
      countWork (exec proc cdt s acts).trace = countWork s.trace
        ∧ (exec proc cdt s acts).stopped = true := by
  intro acts
  induction acts with
  | nil => intro s hs; exact ⟨rfl, hs⟩
  | cons a rest ih =>
    intro s hs
    rw [exec]
    cases a with
    | runT k =>
      cases hq : s.queue[k]? with
      | none =>
        simp [doAct, hq]
        exact ih s hs
      | some t =>
        have hstep := hf { s with queue := s.queue.eraseIdx k } t hs
        have := ih (proc { s with queue := s.queue.eraseIdx k } t) hstep.2
        simp [doAct, hq]
        rw [this.1, hstep.1]
        exact ⟨rfl, this.2⟩
    | stopA =>
      have := ih { s with stopped := true, queue := s.queue ++ [cdt] } rfl
      simp [doAct]
      exact this

/-- If every scheduler action preserves a state predicate, so does every
schedule. -/
theorem exec_inv {τ : Type} (proc : MachState τ → τ → MachState τ)
    (cdt : τ) (Inv : MachState τ → Prop)
    (hI : ∀ s a, Inv s → Inv (doAct proc cdt s a)) :
    ∀ (acts : List Act) (s : MachState τ), Inv s →
      Inv (exec proc cdt s acts) := by
  intro acts
  induction acts with
  | nil => intro s hs; exact hs
  | cons a rest ih =>
    intro s hs
    rw [exec]
    exact ih _ (hI s a hs)

/-- Removing one occurrence of a different element keeps membership. -/
theorem mem_eraseIdx_of_ne {α : Type} :
    ∀ (l : List α) (k : Nat) (x y : α), l[k]? = some y → x ∈ l → x ≠ y →
      x ∈ l.eraseIdx k := by
  intro l
  induction l with
  | nil =>
    intro k x y hk
    simp at hk
  | cons a rest ih =>
    intro k x y hk hx hne
    cases k with
    | zero =>
      simp at hk
      rcases List.mem_cons.mp hx with hx | hx
      · exact absurd (hx.trans hk) hne
      · simpa using hx
    | succ k =>
      simp at hk
      rcases List.mem_cons.mp hx with hx | hx
      · simp [hx]
      · simp
        right
        exact ih k x y hk hx hne

/-! ### The all-together strategy (`allTogetherStrategy`)

`executeNextWave(i)`: return if `stopped`; `callDone` when `i >= nb`;
otherwise run every gremlin through the sequencer (one `work i 0` event)
and schedule `executeNextWave(i+1)` after the wave completes.  The
strategy body sets `stopped = false`, stores `done`, and calls
`executeNextWave(0)` synchronously. -/

/-- Pending timers of the all-together strategy: the next
`executeNextWave(i)` or a `callDone` scheduled by `stop()`. -/
inductive ATTask where
  | waveT (i : Nat)
  | cdT
deriving DecidableEq, Repr

/-- Task semantics of the all-together strategy. -/
def atProc (nb : Nat) (s : MachState ATTask) : ATTask → MachState ATTask
  | ATTask.cdT => callDone s
  | ATTask.waveT i =>
    if s.stopped then s
    else if nb ≤ i then callDone s
    else { s with trace := s.trace ++ [TEv.work i 0],
                  queue := s.queue ++ [ATTask.waveT (i + 1)] }

/-- Invoking the all-together strategy: resolve `nb` from the parameters
record against the configured default, reset `stopped`, store the
completion callback, and run `executeNextWave(0)` synchronously. -/
def atStart (configNb : Nat) (paramsNb : Option Nat) : MachState ATTask :=
  atProc (resolveNb paramsNb configNb)
    { stopped := false, doneCb := true, queue := [], rem := [], trace := [] }
    (ATTask.waveT 0)

theorem atProc_potential (nb : Nat) (s : MachState ATTask) (t : ATTask) :
    donePotential (atProc nb s t) = donePotential s := by
  cases t with
  | cdT => exact callDone_potential s
  | waveT i =>
    by_cases hst : s.stopped
    · simp [atProc, hst]
    · by_cases hnb : nb ≤ i
      · simp [atProc, hst, hnb, callDone_potential]
      · simp [atProc, hst, hnb, donePotential, countDone_append,
          countDone, isDoneEv]

theorem atProc_frozen (nb : Nat) (s : MachState ATTask) (t : ATTask)
    (hs : s.stopped = true) :
    countWork (atProc nb s t).trace = countWork s.trace
      ∧ (atProc nb s t).stopped = true := by
  cases t with
  | cdT =>
    refine ⟨callDone_countWork s, ?_⟩
    show (callDone s).stopped = true
    rw [callDone_stopped]
    exact hs
  | waveT i => simp [atProc, hs]

/-- While the completion callback is still armed, either the run is
live (a wave task is pending and `stop()` has not been called) or a
`callDone` timer is pending. -/
def ATInv (s : MachState ATTask) : Prop :=
  s.doneCb = true →
    ((s.stopped = false ∧ ∃ i, ATTask.waveT i ∈ s.queue)
      ∨ ATTask.cdT ∈ s.queue)

theorem atInv_doAct (nb : Nat) (s : MachState ATTask) (a : Act)
    (hI : ATInv s) : ATInv (doAct (atProc nb) ATTask.cdT s a) := by
  cases a with
  | stopA =>
    intro _
    right
    simp [doAct]
  | runT k =>
    cases hq : s.queue[k]? with
    | none => simpa [doAct, hq] using hI
    | some t =>
      simp only [doAct, hq]
      cases t with
      | cdT =>
        intro hdc
        exfalso
        by_cases h2 : s.doneCb = true <;> simp [atProc, callDone, h2] at hdc
      | waveT i =>
        by_cases hst : s.stopped = true
        · have hstep : atProc nb { s with queue := s.queue.eraseIdx k }
              (ATTask.waveT i) = { s with queue := s.queue.eraseIdx k } := by
            simp [atProc, hst]
          rw [hstep]
          intro hdc
          rcases hI hdc with ⟨hsf, _⟩ | hcd
          · rw [hst] at hsf
            exact absurd hsf (by simp)
          · right
            exact mem_eraseIdx_of_ne s.queue k ATTask.cdT (ATTask.waveT i)
              hq hcd (by simp)
        · by_cases hnb : nb ≤ i
          · intro hdc
            exfalso
            have hstep : atProc nb { s with queue := s.queue.eraseIdx k }
                (ATTask.waveT i)
                = callDone { s with queue := s.queue.eraseIdx k } := by
              simp [atProc, hst, hnb]
            rw [hstep] at hdc
            by_cases h2 : s.doneCb = true <;> simp [callDone, h2] at hdc
          · have hstep : atProc nb { s with queue := s.queue.eraseIdx k }
                (ATTask.waveT i)
                = { s with
                    queue := s.queue.eraseIdx k ++ [ATTask.waveT (i + 1)],
                    trace := s.trace ++ [TEv.work i 0] } := by
              simp [atProc, hst, hnb]
            rw [hstep]
            intro _
            left
            exact ⟨by simpa using hst, i + 1, by simp⟩

/-- Wave-start events of waves `i, i+1, …, i+m-1`. -/
def workEvList (i : Nat) : Nat → List TEv
  | 0 => []
  | m + 1 => TEv.work i 0 :: workEvList (i + 1) m

theorem countWork_workEvList :
    ∀ (m i : Nat),
      countWork (workEvList i m) = m ∧ countDone (workEvList i m) = 0 := by
  intro m
  induction m with
  | zero => intro i; simp [workEvList, countWork, countDone]
  | succ m ih =>
    intro i
    constructor
    · have h1 := (ih (i + 1)).1
      simp [workEvList, countWork, List.filter_cons, isWorkEv] at h1 ⊢
      omega
    · have h2 := (ih (i + 1)).2
      simp [workEvList, countDone, List.filter_cons, isDoneEv] at h2 ⊢
      exact h2

/-- A live wave chain runs to natural completion: from wave `i` with
`m = nb - i` waves left, processing pending timers in order emits the
remaining wave starts and then fires completion exactly once. -/
theorem at_natural_run (nb : Nat) :
    ∀ (m i : Nat) (tr : List TEv), i + m = nb →
      exec (atProc nb) ATTask.cdT
          { stopped := false, doneCb := true, queue := [ATTask.waveT i],
            rem := [], trace := tr }
          (List.replicate (m + 1) (Act.runT 0))
        = { stopped := false, doneCb := false, queue := [], rem := [],
            trace := tr ++ workEvList i m ++ [TEv.doneFired] } := by
  intro m
  induction m with
  | zero =>
    intro i tr hi
    have hnb : nb ≤ i := by omega
    simp [exec, doAct, atProc, hnb, callDone, workEvList]
  | succ m ih =>
    intro i tr hi
    have hnb : ¬nb ≤ i := by omega
    rw [List.replicate_succ, exec]
    have hstep : doAct (atProc nb) ATTask.cdT
        { stopped := false, doneCb := true, queue := [ATTask.waveT i],
          rem := [], trace := tr } (Act.runT 0)
        = { stopped := false, doneCb := true, queue := [ATTask.waveT (i + 1)],
            rem := [], trace := tr ++ [TEv.work i 0] } := by
      simp [doAct, atProc, hnb]
    rw [hstep, ih (i + 1) (tr ++ [TEv.work i 0]) (by omega)]
    simp [workEvList]

/-! ### The distribution strategy (`distributionStrategy`)

`executeNext(gremlin, i, callback)`: return if `stopped`; `callDone`
when `i >= nb`; otherwise run the picked gremlin through the sequencer
(one `work i 0` event — the pick itself is `pickGremlin`, modelled
above) and schedule the next step.  The body resolves `nb`, returns
`done()` immediately when `nb === 0`, else resets `stopped`, stores
`done` and starts step 0 synchronously. -/

/-- Pending timers of the distribution strategy. -/
inductive DTask where
  | stepT (i : Nat)
  | cdT
deriving DecidableEq, Repr

/-- Task semantics of the distribution strategy. -/
def distProc (nb : Nat) (s : MachState DTask) : DTask → MachState DTask
  | DTask.cdT => callDone s
  | DTask.stepT i =>
    if s.stopped then s
    else if nb ≤ i then callDone s
    else { s with trace := s.trace ++ [TEv.work i 0],
                  queue := s.queue ++ [DTask.stepT (i + 1)] }

/-- Invoking the distribution strategy: resolve `nb`; when it is zero,
call `done()` directly (the completion fires once, `doneCallback` is
never stored); otherwise reset `stopped`, store the callback and run
step 0 synchronously. -/
def distStart (configNb : Nat) (paramsNb : Option Nat) : MachState DTask :=
  if resolveNb paramsNb configNb = 0 then
    { stopped := false, doneCb := false, queue := [], rem := [],
      trace := [TEv.doneFired] }
  else
    distProc (resolveNb paramsNb configNb)
      { stopped := false, doneCb := true, queue := [], rem := [], trace := [] }
      (DTask.stepT 0)

theorem distProc_potential (nb : Nat) (s : MachState DTask) (t : DTask) :
    donePotential (distProc nb s t) = donePotential s := by
  cases t with
  | cdT => exact callDone_potential s
  | stepT i =>
    by_cases hst : s.stopped
    · simp [distProc, hst]
    · by_cases hnb : nb ≤ i
      · simp [distProc, hst, hnb, callDone_potential]
      · simp [distProc, hst, hnb, donePotential, countDone_append,
          countDone, isDoneEv]

theorem distProc_frozen (nb : Nat) (s : MachState DTask) (t : DTask)
    (hs : s.stopped = true) :
    countWork (distProc nb s t).trace = countWork s.trace
      ∧ (distProc nb s t).stopped = true := by
  cases t with
  | cdT =>
    refine ⟨callDone_countWork s, ?_⟩
    show (callDone s).stopped = true
    rw [callDone_stopped]
    exact hs
  | stepT i => simp [distProc, hs]

/-- Distribution analogue of `ATInv`. -/
def DInv (s : MachState DTask) : Prop :=
  s.doneCb = true →
    ((s.stopped = false ∧ ∃ i, DTask.stepT i ∈ s.queue)
      ∨ DTask.cdT ∈ s.queue)

theorem dInv_doAct (nb : Nat) (s : MachState DTask) (a : Act)
    (hI : DInv s) : DInv (doAct (distProc nb) DTask.cdT s a) := by
  cases a with
  | stopA =>
    intro _
    right
    simp [doAct]
  | runT k =>
    cases hq : s.queue[k]? with
    | none => simpa [doAct, hq] using hI
    | some t =>
      simp only [doAct, hq]
      cases t with
      | cdT =>
        intro hdc
        exfalso
        by_cases h2 : s.doneCb = true <;> simp [distProc, callDone, h2] at hdc
      | stepT i =>
        by_cases hst : s.stopped = true
        · have hstep : distProc nb { s with queue := s.queue.eraseIdx k }
              (DTask.stepT i) = { s with queue := s.queue.eraseIdx k } := by
            simp [distProc, hst]
          rw [hstep]
          intro hdc
          rcases hI hdc with ⟨hsf, _⟩ | hcd
          · rw [hst] at hsf
            exact absurd hsf (by simp)
          · right
            exact mem_eraseIdx_of_ne s.queue k DTask.cdT (DTask.stepT i)
              hq hcd (by simp)
        · by_cases hnb : nb ≤ i
          · intro hdc
            exfalso
            have hstep : distProc nb { s with queue := s.queue.eraseIdx k }
                (DTask.stepT i)
                = callDone { s with queue := s.queue.eraseIdx k } := by
              simp [distProc, hst, hnb]
            rw [hstep] at hdc
            by_cases h2 : s.doneCb = true <;> simp [callDone, h2] at hdc
          · have hstep : distProc nb { s with queue := s.queue.eraseIdx k }
                (DTask.stepT i)
                = { s with
                    queue := s.queue.eraseIdx k ++ [DTask.stepT (i + 1)],
                    trace := s.trace ++ [TEv.work i 0] } := by
              simp [distProc, hst, hnb]
            rw [hstep]
            intro _
            left
            exact ⟨by simpa using hst, i + 1, by simp⟩

/-- A live step chain of the distribution strategy runs to natural
completion like the all-together wave chain. -/
theorem dist_natural_run (nb : Nat) :
    ∀ (m i : Nat) (tr : List TEv), i + m = nb →
      exec (distProc nb) DTask.cdT
          { stopped := false, doneCb := true, queue := [DTask.stepT i],
            rem := [], trace := tr }
          (List.replicate (m + 1) (Act.runT 0))
        = { stopped := false, doneCb := false, queue := [], rem := [],
            trace := tr ++ workEvList i m ++ [TEv.doneFired] } := by
  intro m
  induction m with
  | zero =>
    intro i tr hi
    have hnb : nb ≤ i := by omega
    simp [exec, doAct, distProc, hnb, callDone, workEvList]
  | succ m ih =>
    intro i tr hi
    have hnb : ¬nb ≤ i := by omega
    rw [List.replicate_succ, exec]
    have hstep : doAct (distProc nb) DTask.cdT
        { stopped := false, doneCb := true, queue := [DTask.stepT i],
          rem := [], trace := tr } (Act.runT 0)
        = { stopped := false, doneCb := true, queue := [DTask.stepT (i + 1)],
            rem := [], trace := tr ++ [TEv.work i 0] } := by
      simp [doAct, distProc, hnb]
    rw [hstep, ih (i + 1) (tr ++ [TEv.work i 0]) (by omega)]
    simp [workEvList]

/-! ### The by-species strategy (`bySpeciesStrategy`)

The strategy keeps a working copy of the gremlin list (`gremlinsCopy`,
the `rem` field).  `executeNextGremlin()` shifts the next gremlin off
the copy and exhausts it with `executeNext(gremlin, 0, ...)`;
`executeNext` runs the gremlin `nb` times, a `setTimeout` between
repetitions, then calls back into `executeNextGremlin` synchronously.
`callDone` fires when the copy is exhausted. -/

/-- Pending timers of the by-species strategy: the next
`executeNext(gremlin, i, executeNextGremlin)` or a `callDone`. -/
inductive BSTask where
  | actT (g i : Nat)
  | cdT
deriving DecidableEq, Repr

mutual

/-- `executeNextGremlin()`: return when `stopped`; `callDone` when the
working copy is empty (`gremlinsCopy.length === 0`); otherwise shift the
next gremlin off the copy and run it from repetition 0, synchronously. -/
def execNextGremlin (nb : Nat) (s : MachState BSTask) : MachState BSTask :=
  if s.stopped then s
  else if hlen : s.rem.length = 0 then callDone s
  else execNext nb { s with rem := s.rem.tail } s.rem.headI 0
termination_by (s.rem.length, 0)
decreasing_by
  simp [List.length_tail]
  omega

/-- `executeNext(gremlin, i, callback)`: return when `stopped`; move to
the next gremlin when `i >= nb` (the callback runs synchronously);
otherwise run the gremlin through the sequencer (one `work g i` event)
and schedule repetition `i + 1`. -/
def execNext (nb : Nat) (s : MachState BSTask) (g i : Nat) :
    MachState BSTask :=
  if s.stopped then s
  else if nb ≤ i then execNextGremlin nb s
  else { s with trace := s.trace ++ [TEv.work g i],
                queue := s.queue ++ [BSTask.actT g (i + 1)] }
termination_by (s.rem.length, 1)

end

/-- Task semantics of the by-species strategy. -/
def bsProc (nb : Nat) (s : MachState BSTask) : BSTask → MachState BSTask
  | BSTask.cdT => callDone s
  | BSTask.actT g i => execNext nb s g i

/-- Invoking the by-species strategy: resolve `nb`, reset `stopped`,
store the completion callback, copy the gremlin list and call
`executeNextGremlin()` synchronously. -/
def bsStart (configNb : Nat) (paramsNb : Option Nat) (gs : List Nat) :
    MachState BSTask :=
  execNextGremlin (resolveNb paramsNb configNb)
    { stopped := false, doneCb := true, queue := [], rem := gs, trace := [] }

theorem execNextGremlin_stopped_id (nb : Nat) (s : MachState BSTask)
    (hs : s.stopped = true) : execNextGremlin nb s = s := by
  rw [execNextGremlin]
  simp [hs]

theorem execNext_stopped_id (nb : Nat) (s : MachState BSTask) (g i : Nat)
    (hs : s.stopped = true) : execNext nb s g i = s := by
  rw [execNext]
  simp [hs]

/-- The synchronous by-species chains never touch the `stopped` flag,
preserve the completion potential, and — when the run is live — leave
either a disarmed completion callback or a pending action task. -/
theorem execNextGremlin_run_facts (nb : Nat) :
    ∀ (n : Nat) (s : MachState BSTask), s.rem.length = n →
      (execNextGremlin nb s).stopped = s.stopped
        ∧ donePotential (execNextGremlin nb s) = donePotential s
        ∧ (s.stopped = false →
            ((execNextGremlin nb s).doneCb = false
              ∨ ∃ g i, BSTask.actT g i ∈ (execNextGremlin nb s).queue)) := by
  intro n
  induction n with
  | zero =>
    intro s hlen
    by_cases hs : s.stopped = true
    · rw [execNextGremlin_stopped_id nb s hs]
      simp [hs]
    · have hstep : execNextGremlin nb s = callDone s := by
        rw [execNextGremlin]
        simp [hs, hlen]
      rw [hstep]
      refine ⟨callDone_stopped s, callDone_potential s, fun _ => ?_⟩
      left
      by_cases h2 : s.doneCb <;> simp [callDone, h2]
  | succ n ih =>
    intro s hlen
    by_cases hs : s.stopped = true
    · rw [execNextGremlin_stopped_id nb s hs]
      simp [hs]
    · have hne : ¬s.rem.length = 0 := by omega
      have hstep : execNextGremlin nb s
          = execNext nb { s with rem := s.rem.tail } s.rem.headI 0 := by
        rw [execNextGremlin]
        simp [hs, hne]
      rw [hstep]
      have hs2f : ({ s with rem := s.rem.tail } : MachState BSTask).stopped
          = false := by simpa using hs
      by_cases hnb : nb ≤ 0
      · have hstep2 : execNext nb { s with rem := s.rem.tail } s.rem.headI 0
            = execNextGremlin nb { s with rem := s.rem.tail } := by
          rw [execNext]
          simp [hs, hnb]
        rw [hstep2]
        have hlen2 : ({ s with rem := s.rem.tail } :
            MachState BSTask).rem.length = n := by
          simp [List.length_tail]
          omega
        have hih := ih { s with rem := s.rem.tail } hlen2
        exact ⟨hih.1, hih.2.1, fun _ => hih.2.2 hs2f⟩
      · have hstep2 : execNext nb { s with rem := s.rem.tail } s.rem.headI 0
            = { s with
                rem := s.rem.tail,
                trace := s.trace ++ [TEv.work s.rem.headI 0],
                queue := s.queue ++ [BSTask.actT s.rem.headI 1] } := by
          rw [execNext]
          simp [hs, hnb]
        rw [hstep2]
        refine ⟨rfl, ?_, fun _ => ?_⟩
        · simp [donePotential, countDone_append, countDone, isDoneEv]
        · right
          exact ⟨s.rem.headI, 1, by simp⟩

/-- `executeNext` facts, one unfolding away from the previous lemma. -/
theorem execNext_run_facts (nb : Nat) (s : MachState BSTask) (g i : Nat) :
    (execNext nb s g i).stopped = s.stopped
      ∧ donePotential (execNext nb s g i) = donePotential s
      ∧ (s.stopped = false →
          ((execNext nb s g i).doneCb = false
            ∨ ∃ g2 i2, BSTask.actT g2 i2 ∈ (execNext nb s g i).queue)) := by
  by_cases hs : s.stopped = true
  · rw [execNext_stopped_id nb s g i hs]
    simp [hs]
  · by_cases hnb : nb ≤ i
    · have hstep : execNext nb s g i = execNextGremlin nb s := by
        rw [execNext]
        simp [hs, hnb]
      rw [hstep]
      exact execNextGremlin_run_facts nb s.rem.length s rfl
    · have hstep : execNext nb s g i
          = { s with trace := s.trace ++ [TEv.work g i],
                     queue := s.queue ++ [BSTask.actT g (i + 1)] } := by
        rw [execNext]
        simp [hs, hnb]
      rw [hstep]
      refine ⟨rfl, ?_, fun _ => ?_⟩
      · simp [donePotential, countDone_append, countDone, isDoneEv]
      · right
        exact ⟨g, i + 1, by simp⟩

theorem bsProc_potential (nb : Nat) (s : MachState BSTask) (t : BSTask) :
    donePotential (bsProc nb s t) = donePotential s := by
  cases t with
  | cdT => exact callDone_potential s
  | actT g i => exact (execNext_run_facts nb s g i).2.1

theorem bsProc_frozen (nb : Nat) (s : MachState BSTask) (t : BSTask)
    (hs : s.stopped = true) :
    countWork (bsProc nb s t).trace = countWork s.trace
      ∧ (bsProc nb s t).stopped = true := by
  cases t with
  | cdT =>
    refine ⟨callDone_countWork s, ?_⟩
    show (callDone s).stopped = true
    rw [callDone_stopped]
    exact hs
  | actT g i =>
    show countWork (execNext nb s g i).trace = countWork s.trace
      ∧ (execNext nb s g i).stopped = true
    rw [execNext_stopped_id nb s g i hs]
    exact ⟨rfl, hs⟩

/-- By-species analogue of `ATInv`. -/
def BSInv (s : MachState BSTask) : Prop :=
  s.doneCb = true →
    ((s.stopped = false ∧ ∃ g i, BSTask.actT g i ∈ s.queue)
      ∨ BSTask.cdT ∈ s.queue)

theorem bsInv_doAct (nb : Nat) (s : MachState BSTask) (a : Act)
    (hI : BSInv s) : BSInv (doAct (bsProc nb) BSTask.cdT s a) := by
  cases a with
  | stopA =>
    intro _
    right
    simp [doAct]
  | runT k =>
    cases hq : s.queue[k]? with
    | none => simpa [doAct, hq] using hI
    | some t =>
      simp only [doAct, hq]
      cases t with
      | cdT =>
        intro hdc
        exfalso
        by_cases h2 : s.doneCb = true <;> simp [bsProc, callDone, h2] at hdc
      | actT g i =>
        by_cases hst : s.stopped = true
        · have hstep : bsProc nb { s with queue := s.queue.eraseIdx k }
              (BSTask.actT g i) = { s with queue := s.queue.eraseIdx k } := by
            show execNext nb _ g i = _
            exact execNext_stopped_id nb _ g i hst
          rw [hstep]
          intro hdc
          rcases hI hdc with ⟨hsf, _⟩ | hcd
          · rw [hst] at hsf
            exact absurd hsf (by simp)
          · right
            exact mem_eraseIdx_of_ne s.queue k BSTask.cdT (BSTask.actT g i)
              hq hcd (by simp)
        · intro hdc
          have hs2f : ({ s with queue := s.queue.eraseIdx k } :
              MachState BSTask).stopped = false := by simpa using hst
          have hfacts := execNext_run_facts nb
            { s with queue := s.queue.eraseIdx k } g i
          have hdc2 : (execNext nb { s with queue := s.queue.eraseIdx k }
              g i).doneCb = true := hdc
          rcases hfacts.2.2 hs2f with hdf | ⟨g2, i2, hmem⟩
          · rw [hdf] at hdc2
            exact absurd hdc2 (by simp)
          · left
            exact ⟨hfacts.1.trans hs2f, g2, i2, hmem⟩

/-! ### Start states -/

theorem atStart_potential (c : Nat) (p : Option Nat) :
    donePotential (atStart c p) = 1 := by
  unfold atStart
  rw [atProc_potential]
  simp [donePotential, countDone]

theorem atStart_inv (c : Nat) (p : Option Nat) : ATInv (atStart c p) := by
  unfold atStart
  by_cases hnb : resolveNb p c ≤ 0
  · intro hdc
    exfalso
    simp [atProc, hnb, callDone] at hdc
  · intro _
    left
    constructor
    · simp [atProc, hnb]
    · exact ⟨1, by simp [atProc, hnb]⟩

theorem distStart_potential (c : Nat) (p : Option Nat) :
    donePotential (distStart c p) = 1 := by
  unfold distStart
  by_cases hz : resolveNb p c = 0
  · simp [hz, donePotential, countDone, isDoneEv, List.filter]
  · rw [if_neg hz, distProc_potential]
    simp [donePotential, countDone]

theorem distStart_inv (c : Nat) (p : Option Nat) : DInv (distStart c p) := by
  unfold distStart
  by_cases hz : resolveNb p c = 0
  · rw [if_pos hz]
    intro hdc
    exact absurd hdc (by simp)
  · rw [if_neg hz]
    have hnb : ¬resolveNb p c ≤ 0 := by omega
    intro _
    left
    constructor
    · simp [distProc, hnb]
    · exact ⟨1, by simp [distProc, hnb]⟩

theorem bsStart_potential (c : Nat) (p : Option Nat) (gs : List Nat) :
    donePotential (bsStart c p gs) = 1 := by
  unfold bsStart
  rw [(execNextGremlin_run_facts (resolveNb p c) gs.length _ rfl).2.1]
  simp [donePotential, countDone]

theorem bsStart_inv (c : Nat) (p : Option Nat) (gs : List Nat) :
    BSInv (bsStart c p gs) := by
  unfold bsStart
  have hfacts := execNextGremlin_run_facts (resolveNb p c) gs.length
    { stopped := false, doneCb := true, queue := [], rem := gs, trace := [] }
    rfl
  intro hdc
  rcases hfacts.2.2 rfl with hdf | ⟨g, i, hmem⟩
  · rw [hdf] at hdc
    exact absurd hdc (by simp)
  · left
    exact ⟨hfacts.1, g, i, hmem⟩

theorem atInv_empty (s : MachState ATTask) (hI : ATInv s)
    (hq : s.queue = []) : s.doneCb = false := by
  by_cases hdc : s.doneCb = true
  · rcases hI hdc with ⟨_, i, hmem⟩ | hmem <;>
      · rw [hq] at hmem
        exact absurd hmem (by simp)
  · simpa using hdc

theorem dInv_empty (s : MachState DTask) (hI : DInv s)
    (hq : s.queue = []) : s.doneCb = false := by
  by_cases hdc : s.doneCb = true
  · rcases hI hdc with ⟨_, i, hmem⟩ | hmem <;>
      · rw [hq] at hmem
        exact absurd hmem (by simp)
  · simpa using hdc

theorem bsInv_empty (s : MachState BSTask) (hI : BSInv s)
    (hq : s.queue = []) : s.doneCb = false := by
  by_cases hdc : s.doneCb = true
  · rcases hI hdc with ⟨_, g, i, hmem⟩ | hmem <;>
      · rw [hq] at hmem
        exact absurd hmem (by simp)
  · simpa using hdc

/-- The three stop-contract properties, generically: (a) completion
never fires more than once; (b) once `stop()` occurs in the schedule, no
further work starts; (c) when every pending timer has fired, completion
has fired exactly once. -/
theorem machine_contract {τ : Type} (proc : MachState τ → τ → MachState τ)
    (cdt : τ) (s0 : MachState τ)
    (hpot : ∀ s t, donePotential (proc s t) = donePotential s)
    (hfroz : ∀ s t, s.stopped = true →
      countWork (proc s t).trace = countWork s.trace
        ∧ (proc s t).stopped = true)
    (Inv : MachState τ → Prop)
    (hInvPres : ∀ s a, Inv s → Inv (doAct proc cdt s a))
    (hInvEmpty : ∀ s, Inv s → s.queue = [] → s.doneCb = false)
    (hs0pot : donePotential s0 = 1) (hs0inv : Inv s0)
    (acts pre post : List Act) :
    countDone (exec proc cdt s0 acts).trace ≤ 1
      ∧ (acts = pre ++ Act.stopA :: post →
          countWork (exec proc cdt s0 acts).trace
            = countWork (exec proc cdt s0 (pre ++ [Act.stopA])).trace)
      ∧ ((exec proc cdt s0 acts).queue = [] →
          countDone (exec proc cdt s0 acts).trace = 1) := by
  have hpotF : donePotential (exec proc cdt s0 acts) = 1 := by
    rw [exec_potential proc cdt hpot acts s0, hs0pot]
  refine ⟨?_, ?_, ?_⟩
  · by_cases hdc : (exec proc cdt s0 acts).doneCb <;>
      · simp [donePotential, hdc] at hpotF
        omega
  · intro heq
    have hsplit : acts = (pre ++ [Act.stopA]) ++ post := by
      rw [heq]
      simp
    rw [hsplit, exec_append]
    have hs1 : (exec proc cdt s0 (pre ++ [Act.stopA])).stopped = true := by
      rw [exec_append]
      rfl
    exact (exec_frozen proc cdt hfroz post _ hs1).1
  · intro hempty
    have hinvF : Inv (exec proc cdt s0 acts) :=
      exec_inv proc cdt Inv hInvPres acts s0 hs0inv
    have hdc := hInvEmpty _ hinvF hempty
    simp [donePotential, hdc] at hpotF
    exact hpotF

/-- C3: for each of the three strategies (all-together, distribution,
by-species), from a fresh run and under every schedule of timer firings
and `stop()` calls — including several `stop()` calls in succession —
the completion callback fires at most once; from the moment a `stop()`
occurs in the schedule no further wave/step/action begins (the work
count is already final); and once every pending timer has fired, the
completion callback has fired exactly once, whether the run was stopped
or finished naturally. -/
theorem strategies_stop_contract (cA cD cB : Nat) (pA pD pB : Option Nat)
    (gs : List Nat) (acts pre post : List Act) :
    (countDone (exec (atProc (resolveNb pA cA)) ATTask.cdT
          (atStart cA pA) acts).trace ≤ 1
      ∧ (acts = pre ++ Act.stopA :: post →
          countWork (exec (atProc (resolveNb pA cA)) ATTask.cdT
              (atStart cA pA) acts).trace
            = countWork (exec (atProc (resolveNb pA cA)) ATTask.cdT
                (atStart cA pA) (pre ++ [Act.stopA])).trace)
      ∧ ((exec (atProc (resolveNb pA cA)) ATTask.cdT
            (atStart cA pA) acts).queue = [] →
          countDone (exec (atProc (resolveNb pA cA)) ATTask.cdT
              (atStart cA pA) acts).trace = 1))
    ∧ (countDone (exec (distProc (resolveNb pD cD)) DTask.cdT
          (distStart cD pD) acts).trace ≤ 1
      ∧ (acts = pre ++ Act.stopA :: post →
          countWork (exec (distProc (resolveNb pD cD)) DTask.cdT
              (distStart cD pD) acts).trace
            = countWork (exec (distProc (resolveNb pD cD)) DTask.cdT
                (distStart cD pD) (pre ++ [Act.stopA])).trace)
      ∧ ((exec (distProc (resolveNb pD cD)) DTask.cdT
            (distStart cD pD) acts).queue = [] →
          countDone (exec (distProc (resolveNb pD cD)) DTask.cdT
              (distStart cD pD) acts).trace = 1))
    ∧ (countDone (exec (bsProc (resolveNb pB cB)) BSTask.cdT
          (bsStart cB pB gs) acts).trace ≤ 1
      ∧ (acts = pre ++ Act.stopA :: post →
          countWork (exec (bsProc (resolveNb pB cB)) BSTask.cdT
              (bsStart cB pB gs) acts).trace
            = countWork (exec (bsProc (resolveNb pB cB)) BSTask.cdT
                (bsStart cB pB gs) (pre ++ [Act.stopA])).trace)
      ∧ ((exec (bsProc (resolveNb pB cB)) BSTask.cdT
            (bsStart cB pB gs) acts).queue = [] →
          countDone (exec (bsProc (resolveNb pB cB)) BSTask.cdT
              (bsStart cB pB gs) acts).trace = 1)) := by
  refine ⟨?_, ?_, ?_⟩
  · exact machine_contract (atProc (resolveNb pA cA)) ATTask.cdT
      (atStart cA pA) (atProc_potential (resolveNb pA cA))
      (atProc_frozen (resolveNb pA cA)) ATInv
      (atInv_doAct (resolveNb pA cA)) atInv_empty
      (atStart_potential cA pA) (atStart_inv cA pA) acts pre post
  · exact machine_contract (distProc (resolveNb pD cD)) DTask.cdT
      (distStart cD pD) (distProc_potential (resolveNb pD cD))
      (distProc_frozen (resolveNb pD cD)) DInv
      (dInv_doAct (resolveNb pD cD)) dInv_empty
      (distStart_potential cD pD) (distStart_inv cD pD) acts pre post
  · exact machine_contract (bsProc (resolveNb pB cB)) BSTask.cdT
      (bsStart cB pB gs) (bsProc_potential (resolveNb pB cB))
      (bsProc_frozen (resolveNb pB cB)) BSInv
      (bsInv_doAct (resolveNb pB cB)) bsInv_empty
      (bsStart_potential cB pB gs) (bsStart_inv cB pB gs) acts pre post

/-- A schedule with `stop()` called first, then every pending timer
fired: the skipped wave, the `callDone` timer, and one spare firing. -/
def stopSchedule : List Act :=
  [Act.stopA, Act.runT 0, Act.runT 0, Act.runT 0]

/-- Witness for C3: on all three strategies (`nb` override 5, one
gremlin), calling `stop()` right after the first synchronous step and
then firing all timers freezes the work count and fires completion
exactly once. -/
theorem strategies_stop_contract_witness :
    (countDone (exec (atProc (resolveNb (some 5) 100)) ATTask.cdT
        (atStart 100 (some 5)) stopSchedule).trace ≤ 1
      ∧ countWork (exec (atProc (resolveNb (some 5) 100)) ATTask.cdT
          (atStart 100 (some 5)) stopSchedule).trace
        = countWork (exec (atProc (resolveNb (some 5) 100)) ATTask.cdT
            (atStart 100 (some 5)) ([] ++ [Act.stopA])).trace
      ∧ countDone (exec (atProc (resolveNb (some 5) 100)) ATTask.cdT
          (atStart 100 (some 5)) stopSchedule).trace = 1)
    ∧ (countDone (exec (distProc (resolveNb (some 5) 1000)) DTask.cdT
        (distStart 1000 (some 5)) stopSchedule).trace ≤ 1
      ∧ countWork (exec (distProc (resolveNb (some 5) 1000)) DTask.cdT
          (distStart 1000 (some 5)) stopSchedule).trace
        = countWork (exec (distProc (resolveNb (some 5) 1000)) DTask.cdT
            (distStart 1000 (some 5)) ([] ++ [Act.stopA])).trace
      ∧ countDone (exec (distProc (resolveNb (some 5) 1000)) DTask.cdT
          (distStart 1000 (some 5)) stopSchedule).trace = 1)
    ∧ (countDone (exec (bsProc (resolveNb (some 5) 200)) BSTask.cdT
        (bsStart 200 (some 5) [7]) stopSchedule).trace ≤ 1
      ∧ countWork (exec (bsProc (resolveNb (some 5) 200)) BSTask.cdT
          (bsStart 200 (some 5) [7]) stopSchedule).trace
        = countWork (exec (bsProc (resolveNb (some 5) 200)) BSTask.cdT
            (bsStart 200 (some 5) [7]) ([] ++ [Act.stopA])).trace
      ∧ countDone (exec (bsProc (resolveNb (some 5) 200)) BSTask.cdT
          (bsStart 200 (some 5) [7]) stopSchedule).trace = 1) := by
  have h := strategies_stop_contract 100 1000 200 (some 5) (some 5) (some 5)
    [7] stopSchedule [] [Act.runT 0, Act.runT 0, Act.runT 0]
  refine ⟨⟨h.1.1, h.1.2.1 rfl, h.1.2.2 (by decide)⟩,
    ⟨h.2.1.1, h.2.1.2.1 rfl, h.2.1.2.2 (by decide)⟩,
    ⟨h.2.2.1, h.2.2.2.1 rfl, h.2.2.2.2 ?_⟩⟩
  show (exec (bsProc (resolveNb (some 5) 200)) BSTask.cdT
      (bsStart 200 (some 5) [7]) stopSchedule).queue = []
  have hstart : bsStart 200 (some 5) [7]
      = { stopped := false, doneCb := true, queue := [BSTask.actT 7 1],
          rem := [], trace := [TEv.work 7 0] } := by
    unfold bsStart
    rw [execNextGremlin]
    norm_num [resolveNb]
    rw [execNext]
    norm_num
  rw [hstart]
  show (exec (bsProc 5) BSTask.cdT _ stopSchedule).queue = []
  rw [stopSchedule]
  rw [exec, exec, exec, exec, exec]
  norm_num [doAct, bsProc, callDone]
  rw [execNext_stopped_id]
  · norm_num [doAct, callDone]
  · rfl

/-! ### Natural-run repetition counts -/

/-- An unstopped all-together run that fires every pending timer
performs exactly the resolved number of waves and fires completion
once. -/
theorem at_run_count (c : Nat) (p : Option Nat) :
    countWork (exec (atProc (resolveNb p c)) ATTask.cdT (atStart c p)
        (List.replicate (resolveNb p c) (Act.runT 0))).trace
      = resolveNb p c
    ∧ countDone (exec (atProc (resolveNb p c)) ATTask.cdT (atStart c p)
        (List.replicate (resolveNb p c) (Act.runT 0))).trace = 1 := by
  by_cases hz : resolveNb p c = 0
  · have hstart : atStart c p
        = { stopped := false, doneCb := false, queue := [], rem := [],
            trace := [TEv.doneFired] } := by
      unfold atStart
      simp [atProc, hz, callDone]
    rw [hz, hstart]
    simp [exec, countWork, countDone, isWorkEv, isDoneEv, List.filter]
  · have hgt : ¬resolveNb p c ≤ 0 := by omega
    have hstart : atStart c p
        = { stopped := false, doneCb := true, queue := [ATTask.waveT 1],
            rem := [], trace := [TEv.work 0 0] } := by
      unfold atStart
      simp [atProc, hgt]
    have hrun := at_natural_run (resolveNb p c) (resolveNb p c - 1) 1
      [TEv.work 0 0] (by omega)
    have hrep : List.replicate (resolveNb p c) (Act.runT 0)
        = List.replicate (resolveNb p c - 1 + 1) (Act.runT 0) := by
      congr 1
      omega
    rw [hstart, hrep, hrun]
    have hcw := (countWork_workEvList (resolveNb p c - 1) 1).1
    have hcd := (countWork_workEvList (resolveNb p c - 1) 1).2
    constructor
    · simp only [countWork_append]
      rw [hcw]
      simp [countWork, isWorkEv, List.filter]
      omega
    · simp only [countDone_append]
      rw [hcd]
      simp [countDone, isDoneEv, List.filter]

/-- An unstopped distribution run that fires every pending timer
performs exactly the resolved number of steps and fires completion
once (including the `nb === 0` early return). -/
theorem dist_run_count (c : Nat) (p : Option Nat) :
    countWork (exec (distProc (resolveNb p c)) DTask.cdT (distStart c p)
        (List.replicate (resolveNb p c) (Act.runT 0))).trace
      = resolveNb p c
    ∧ countDone (exec (distProc (resolveNb p c)) DTask.cdT (distStart c p)
        (List.replicate (resolveNb p c) (Act.runT 0))).trace = 1 := by
  by_cases hz : resolveNb p c = 0
  · have hstart : distStart c p
        = { stopped := false, doneCb := false, queue := [], rem := [],
            trace := [TEv.doneFired] } := by
      unfold distStart
      rw [if_pos hz]
    rw [hz, hstart]
    simp [exec, countWork, countDone, isWorkEv, isDoneEv, List.filter]
  · have hgt : ¬resolveNb p c ≤ 0 := by omega
    have hstart : distStart c p
        = { stopped := false, doneCb := true, queue := [DTask.stepT 1],
            rem := [], trace := [TEv.work 0 0] } := by
      unfold distStart
      rw [if_neg hz]
      simp [distProc, hgt]
    have hrun := dist_natural_run (resolveNb p c) (resolveNb p c - 1) 1
      [TEv.work 0 0] (by omega)
    have hrep : List.replicate (resolveNb p c) (Act.runT 0)
        = List.replicate (resolveNb p c - 1 + 1) (Act.runT 0) := by
      congr 1
      omega
    rw [hstart, hrep, hrun]
    have hcw := (countWork_workEvList (resolveNb p c - 1) 1).1
    have hcd := (countWork_workEvList (resolveNb p c - 1) 1).2
    constructor
    · simp only [countWork_append]
      rw [hcw]
      simp [countWork, isWorkEv, List.filter]
      omega
    · simp only [countDone_append]
      rw [hcd]
      simp [countDone, isDoneEv, List.filter]

/-- Action events `work g i, …, work g (i+m-1)` of one gremlin. -/
def bsWorkEvs (g i : Nat) : Nat → List TEv
  | 0 => []
  | m + 1 => TEv.work g i :: bsWorkEvs g (i + 1) m

/-- Per-gremlin event blocks of a full by-species run: each gremlin in
turn performs its `nb` repetitions. -/
def bsBlocks (nb : Nat) : List Nat → List TEv
  | [] => []
  | g :: rest => bsWorkEvs g 0 nb ++ bsBlocks nb rest

theorem count_bsWorkEvs (g : Nat) :
    ∀ (m i : Nat),
      countWork (bsWorkEvs g i m) = m ∧ countDone (bsWorkEvs g i m) = 0 := by
  intro m
  induction m with
  | zero => intro i; simp [bsWorkEvs, countWork, countDone]
  | succ m ih =>
    intro i
    constructor
    · have h1 := (ih (i + 1)).1
      simp [bsWorkEvs, countWork, List.filter_cons, isWorkEv] at h1 ⊢
      omega
    · have h2 := (ih (i + 1)).2
      simp [bsWorkEvs, countDone, List.filter_cons, isDoneEv] at h2 ⊢
      exact h2

theorem count_bsBlocks (nb : Nat) :
    ∀ gs : List Nat,
      countWork (bsBlocks nb gs) = nb * gs.length
        ∧ countDone (bsBlocks nb gs) = 0 := by
  intro gs
  induction gs with
  | nil => simp [bsBlocks, countWork, countDone]
  | cons g rest ih =>
    constructor
    · rw [bsBlocks, countWork_append, (count_bsWorkEvs g nb 0).1, ih.1]
      simp [Nat.mul_succ, Nat.mul_add]
      ring
    · rw [bsBlocks, countDone_append, (count_bsWorkEvs g nb 0).2, ih.2]

/-- A live by-species chain runs to natural completion: from repetition
`i` of gremlin `g` with the copy `rem` still to exhaust, firing all
pending timers performs the remaining repetitions of `g`, then the full
block of each remaining gremlin, then fires completion once. -/
theorem bs_run (nb : Nat) (hnb : 1 ≤ nb) :
    ∀ (rem : List Nat), ∀ (m : Nat), ∀ (i g : Nat) (tr : List TEv),
      i + m = nb →
      exec (bsProc nb) BSTask.cdT
          { stopped := false, doneCb := true, queue := [BSTask.actT g i],
            rem := rem, trace := tr }
          (List.replicate (m + 1 + nb * rem.length) (Act.runT 0))
        = { stopped := false, doneCb := false, queue := [], rem := [],
            trace := tr ++ bsWorkEvs g i m ++ bsBlocks nb rem
              ++ [TEv.doneFired] } := by
  intro rem
  induction rem with
  | nil =>
    intro m
    induction m with
    | zero =>
      intro i g tr hi
      have hge : nb ≤ i := by omega
      have hstep : doAct (bsProc nb) BSTask.cdT
          { stopped := false, doneCb := true, queue := [BSTask.actT g i],
            rem := [], trace := tr } (Act.runT 0)
          = { stopped := false, doneCb := false, queue := [], rem := [],
              trace := tr ++ [TEv.doneFired] } := by
        simp only [doAct]
        norm_num
        show execNext nb
            { stopped := false, doneCb := true, queue := [],
              rem := [], trace := tr } g i = _
        rw [execNext]
        simp [hge]
        rw [execNextGremlin]
        simp [callDone]
      simp only [List.length_nil, Nat.mul_zero, Nat.add_zero, Nat.zero_add]
      rw [show List.replicate 1 (Act.runT 0) = [Act.runT 0] from rfl]
      rw [exec, hstep, exec]
      simp [bsWorkEvs, bsBlocks]
    | succ m ihm =>
      intro i g tr hi
      have hlt : ¬nb ≤ i := by omega
      have hstep : doAct (bsProc nb) BSTask.cdT
          { stopped := false, doneCb := true, queue := [BSTask.actT g i],
            rem := [], trace := tr } (Act.runT 0)
          = { stopped := false, doneCb := true,
              queue := [BSTask.actT g (i + 1)], rem := [],
              trace := tr ++ [TEv.work g i] } := by
        simp only [doAct]
        norm_num
        show execNext nb
            { stopped := false, doneCb := true, queue := [],
              rem := [], trace := tr } g i = _
        rw [execNext]
        simp [hlt]
      simp only [List.length_nil, Nat.mul_zero, Nat.add_zero] at ihm ⊢
      rw [List.replicate_succ, exec, hstep]
      rw [ihm (i + 1) g (tr ++ [TEv.work g i]) (by omega)]
      simp [bsWorkEvs, bsBlocks]
  | cons r rest ihrem =>
    intro m
    induction m with
    | zero =>
      intro i g tr hi
      have hge : nb ≤ i := by omega
      have hz : ¬nb ≤ 0 := by omega
      have hstep : doAct (bsProc nb) BSTask.cdT
          { stopped := false, doneCb := true, queue := [BSTask.actT g i],
            rem := r :: rest, trace := tr } (Act.runT 0)
          = { stopped := false, doneCb := true,
              queue := [BSTask.actT r 1], rem := rest,
              trace := tr ++ [TEv.work r 0] } := by
        simp only [doAct]
        norm_num
        show execNext nb
            { stopped := false, doneCb := true, queue := [],
              rem := r :: rest, trace := tr } g i = _
        rw [execNext]
        simp [hge]
        rw [execNextGremlin]
        norm_num
        rw [execNext]
        simp [hz]
      have hlen : (r :: rest).length = rest.length + 1 := by simp
      have hfuel : 0 + 1 + nb * (r :: rest).length
          = ((nb - 1) + 1 + nb * rest.length) + 1 := by
        rw [hlen, Nat.mul_add]
        omega
      rw [hfuel, List.replicate_succ, exec, hstep]
      rw [ihrem (nb - 1) 1 r (tr ++ [TEv.work r 0]) (by omega)]
      have hblock : TEv.work r 0 :: bsWorkEvs r 1 (nb - 1)
          = bsWorkEvs r 0 nb := by
        obtain ⟨k, hk⟩ : ∃ k, nb = k + 1 := ⟨nb - 1, by omega⟩
        subst hk
        simp [bsWorkEvs]
      simp [bsWorkEvs, bsBlocks, ← hblock]
    | succ m ihm =>
      intro i g tr hi
      have hlt : ¬nb ≤ i := by omega
      have hstep : doAct (bsProc nb) BSTask.cdT
          { stopped := false, doneCb := true, queue := [BSTask.actT g i],
            rem := r :: rest, trace := tr } (Act.runT 0)
          = { stopped := false, doneCb := true,
              queue := [BSTask.actT g (i + 1)], rem := r :: rest,
              trace := tr ++ [TEv.work g i] } := by
        simp only [doAct]
        norm_num
        show execNext nb
            { stopped := false, doneCb := true, queue := [],
              rem := r :: rest, trace := tr } g i = _
        rw [execNext]
        simp [hlt]
      rw [show m + 1 + 1 + nb * (r :: rest).length
          = (m + 1 + nb * (r :: rest).length) + 1 by omega]
      rw [List.replicate_succ, exec, hstep]
      rw [ihm (i + 1) g (tr ++ [TEv.work g i]) (by omega)]
      simp [bsWorkEvs]

/-- With a nonzero configured default the resolved repetition count is
positive. -/
theorem resolveNb_pos (c : Nat) (p : Option Nat) (hc : c ≠ 0) :
    1 ≤ resolveNb p c := by
  cases p with
  | none =>
    simp [resolveNb]
    omega
  | some n =>
    by_cases hn : n = 0 <;> simp [resolveNb, hn] <;> omega

/-- An unstopped by-species run that fires every pending timer performs
the resolved number of repetitions for each gremlin and fires completion
once. -/
theorem bs_run_count (c : Nat) (p : Option Nat) (gs : List Nat)
    (hc : c ≠ 0) :
    countWork (exec (bsProc (resolveNb p c)) BSTask.cdT (bsStart c p gs)
        (List.replicate (resolveNb p c * gs.length) (Act.runT 0))).trace
      = resolveNb p c * gs.length
    ∧ countDone (exec (bsProc (resolveNb p c)) BSTask.cdT (bsStart c p gs)
        (List.replicate (resolveNb p c * gs.length) (Act.runT 0))).trace
      = 1 := by
  have hnb := resolveNb_pos c p hc
  cases gs with
  | nil =>
    have hstart : bsStart c p []
        = { stopped := false, doneCb := false, queue := [], rem := [],
            trace := [TEv.doneFired] } := by
      unfold bsStart
      rw [execNextGremlin]
      simp [callDone]
    rw [hstart]
    simp [exec, countWork, countDone, isWorkEv, isDoneEv, List.filter]
  | cons g rest =>
    have hz : ¬resolveNb p c ≤ 0 := by omega
    have hstart : bsStart c p (g :: rest)
        = { stopped := false, doneCb := true, queue := [BSTask.actT g 1],
            rem := rest, trace := [TEv.work g 0] } := by
      unfold bsStart
      rw [execNextGremlin]
      simp
      rw [execNext]
      simp [hz]
    have hfuel : resolveNb p c * (g :: rest).length
        = (resolveNb p c - 1) + 1 + resolveNb p c * rest.length := by
      rw [show (g :: rest).length = rest.length + 1 from by simp,
        Nat.mul_add]
      omega
    rw [hstart, hfuel]
    rw [bs_run (resolveNb p c) hnb rest (resolveNb p c - 1) 1 g
      [TEv.work g 0] (by omega)]
    have hw1 := (count_bsWorkEvs g (resolveNb p c - 1) 1).1
    have hw2 := (count_bsWorkEvs g (resolveNb p c - 1) 1).2
    have hb1 := (count_bsBlocks (resolveNb p c) rest).1
    have hb2 := (count_bsBlocks (resolveNb p c) rest).2
    constructor
    · simp only [countWork_append]
      rw [hw1, hb1]
      simp [countWork, isWorkEv, List.filter]
      omega
    · simp only [countDone_append]
      rw [hw2, hb2]
      simp [countDone, isDoneEv, List.filter]

/-- Counterexample to C4 as stated: the parameters record contains
`nb = 0`, yet the all-together strategy resolves the wave count to its
configured default 100 — not 0 — and its first wave starts immediately
(the JS guard `params && params.nb` is a truthiness test, so a present
but zero `nb` is ignored). -/
theorem nb_zero_override_ignored :
    resolveNb (some 0) 100 = 100
      ∧ countWork (atStart 100 (some 0)).trace = 1 := by
  decide

/-- C4 (amended): each strategy takes its repetition count from the
parameters record's `nb` field when that field is present and nonzero
(truthy); when `nb` is absent — or present but zero — it falls back to
its configured default (100 waves for all-together, 200 per-gremlin
repetitions for by-species, 1000 steps for distribution); and an
unstopped full run performs exactly the resolved number of repetitions:
`resolveNb p 100` waves, `resolveNb p 1000` steps, and
`resolveNb p 200` repetitions per registered gremlin respectively. -/
theorem strategies_nb_override (n c : Nat) (hn : n ≠ 0) (p : Option Nat)
    (gs : List Nat) :
    resolveNb (some n) c = n
    ∧ resolveNb none c = c
    ∧ (countWork (exec (atProc (resolveNb p 100)) ATTask.cdT
          (atStart 100 p)
          (List.replicate (resolveNb p 100) (Act.runT 0))).trace
        = resolveNb p 100
      ∧ countDone (exec (atProc (resolveNb p 100)) ATTask.cdT
          (atStart 100 p)
          (List.replicate (resolveNb p 100) (Act.runT 0))).trace = 1)
    ∧ (countWork (exec (distProc (resolveNb p 1000)) DTask.cdT
          (distStart 1000 p)
          (List.replicate (resolveNb p 1000) (Act.runT 0))).trace
        = resolveNb p 1000
      ∧ countDone (exec (distProc (resolveNb p 1000)) DTask.cdT
          (distStart 1000 p)
          (List.replicate (resolveNb p 1000) (Act.runT 0))).trace = 1)
    ∧ (countWork (exec (bsProc (resolveNb p 200)) BSTask.cdT
          (bsStart 200 p gs)
          (List.replicate (resolveNb p 200 * gs.length)
            (Act.runT 0))).trace
        = resolveNb p 200 * gs.length
      ∧ countDone (exec (bsProc (resolveNb p 200)) BSTask.cdT
          (bsStart 200 p gs)
          (List.replicate (resolveNb p 200 * gs.length)
            (Act.runT 0))).trace = 1) :=
  ⟨by simp [resolveNb, hn], rfl, at_run_count 100 p, dist_run_count 1000 p,
    bs_run_count 200 p gs (by omega)⟩

/-- Witness for the amended C4: `nb = 3` overrides all three defaults;
the all-together run performs 3 waves, the distribution run 3 steps, the
by-species run 3 repetitions for each of its 2 gremlins. -/
theorem strategies_nb_override_witness :
    resolveNb (some 3) 100 = 3
    ∧ resolveNb none 100 = 100
    ∧ (countWork (exec (atProc (resolveNb (some 3) 100)) ATTask.cdT
          (atStart 100 (some 3))
          (List.replicate (resolveNb (some 3) 100) (Act.runT 0))).trace
        = resolveNb (some 3) 100
      ∧ countDone (exec (atProc (resolveNb (some 3) 100)) ATTask.cdT
          (atStart 100 (some 3))
          (List.replicate (resolveNb (some 3) 100) (Act.runT 0))).trace = 1)
    ∧ (countWork (exec (distProc (resolveNb (some 3) 1000)) DTask.cdT
          (distStart 1000 (some 3))
          (List.replicate (resolveNb (some 3) 1000) (Act.runT 0))).trace
        = resolveNb (some 3) 1000
      ∧ countDone (exec (distProc (resolveNb (some 3) 1000)) DTask.cdT
          (distStart 1000 (some 3))
          (List.replicate (resolveNb (some 3) 1000) (Act.runT 0))).trace = 1)
    ∧ (countWork (exec (bsProc (resolveNb (some 3) 200)) BSTask.cdT
          (bsStart 200 (some 3) [4, 5])
          (List.replicate (resolveNb (some 3) 200 * [4, 5].length)
            (Act.runT 0))).trace
        = resolveNb (some 3) 200 * [4, 5].length
      ∧ countDone (exec (bsProc (resolveNb (some 3) 200)) BSTask.cdT
          (bsStart 200 (some 3) [4, 5])
          (List.replicate (resolveNb (some 3) 200 * [4, 5].length)
            (Act.runT 0))).trace = 1) :=
  strategies_nb_override 3 100 (by decide) (some 3) [4, 5]

/-! ## Horde controller: `GremlinsHorde`

The horde owns five registries (`_gremlins`, `_mogwais`, `_strategies`,
`_beforeCallbacks`, `_afterCallbacks`).  `unleash(params, done)`
populates empty registries with defaults, injects services (modelled by
`inject` above), builds the setup list (before-callbacks then mogwais),
collects the `cleanUp` member of every gremlin and mogwai and pushes it
onto `afterCallbacks`, then runs setup → attack → teardown through the
sequencer.  Crucially, the source binds
`const afterCallbacks = this._afterCallbacks` WITHOUT copying, so those
pushes mutate the horde's after-callback registry itself. -/

/-- A gremlin or mogwai as the controller sees it: its identity and the
identity of its `cleanUp` method, when it exposes one. -/
structure HMember where
  id : String
  cleanUp : Option String
deriving DecidableEq, Repr

/-- A registered strategy: the default distribution strategy or a custom
one. -/
inductive StratTag where
  | distributionS
  | custom (id : String)
deriving DecidableEq, Repr

/-- The horde's registries. -/
structure Horde where
  gremlins : List HMember
  mogwais : List HMember
  strategies : List StratTag
  beforeCallbacks : List String
  afterCallbacks : List String
deriving DecidableEq, Repr

/-- The `gremlins.species` catalog, in declaration order: clicker,
toucher, formFiller, scroller, typer.  No species exposes `cleanUp`. -/
def speciesCatalog : List HMember :=
  [⟨"clicker", none⟩, ⟨"toucher", none⟩, ⟨"formFiller", none⟩,
   ⟨"scroller", none⟩, ⟨"typer", none⟩]

/-- The `gremlins.mogwais` catalog, in declaration order: alert, fps,
gizmo.  Each mogwai exposes a `cleanUp` method. -/
def mogwaisCatalog : List HMember :=
  [⟨"alert", some "alertCleanUp"⟩, ⟨"fps", some "fpsCleanUp"⟩,
   ⟨"gizmo", some "gizmoCleanUp"⟩]

/-- `allGremlins()`: append every catalog species to the registry. -/
def allGremlins (h : Horde) : Horde :=
  { h with gremlins := h.gremlins ++ speciesCatalog }

/-- `allMogwais()`: append every catalog mogwai to the registry. -/
def allMogwais (h : Horde) : Horde :=
  { h with mogwais := h.mogwais ++ mogwaisCatalog }

/-- The phase invocation lists one `unleash` call hands to the
sequencer (which, per the sequencer theorems above, invokes each entry
exactly once, in order). -/
structure UnleashRun where
  setupList : List String
  teardownList : List String
deriving DecidableEq, Repr

/-- `unleash(params, done)` (registry bookkeeping): populate empty
registries with the full catalogs and the single distribution strategy;
setup = before-callbacks then mogwais; then
`const afterCallbacks = this._afterCallbacks` (an alias, not a copy)
and a loop pushing the `cleanUp` of every gremlin and mogwai that has
one, in `gremlins ++ mogwais` order; teardown = that array.  The
returned horde carries the mutated after-callback registry. -/
def unleash (h0 : Horde) : Horde × UnleashRun :=
  let h1 := if h0.gremlins.length = 0 then allGremlins h0 else h0
  let h2 := if h1.mogwais.length = 0 then allMogwais h1 else h1
  let h3 := if h2.strategies.length = 0 then
      { h2 with strategies := [StratTag.distributionS] }
    else h2
  let gremlinsAndMogwais := h3.gremlins ++ h3.mogwais
  let beforeCallbacks := h3.beforeCallbacks ++ h3.mogwais.map HMember.id
  let afterCallbacks := h3.afterCallbacks
      ++ gremlinsAndMogwais.filterMap HMember.cleanUp
  let h4 := { h3 with afterCallbacks := afterCallbacks }
  (h4, { setupList := beforeCallbacks, teardownList := afterCallbacks })

/-- C5: `unleash()` on a horde with all three registries empty populates
the gremlin registry with every catalog species, the mogwai registry
with every catalog mogwai, and the strategy registry with exactly one
distribution strategy; and `unleash()` on a horde with at least one
manually registered gremlin leaves the gremlin registry exactly as
registered. -/
theorem unleash_defaults (h h2 : Horde)
    (hg : h.gremlins = []) (hm : h.mogwais = []) (hs : h.strategies = [])
    (hg2 : h2.gremlins ≠ []) :
    (unleash h).1.gremlins = speciesCatalog
      ∧ (unleash h).1.mogwais = mogwaisCatalog
      ∧ (unleash h).1.strategies = [StratTag.distributionS]
      ∧ (unleash h2).1.gremlins = h2.gremlins := by
  refine ⟨?_, ?_, ?_, ?_⟩
  · simp [unleash, hg, hm, hs, allGremlins, allMogwais]
  · simp [unleash, hg, hm, hs, allGremlins, allMogwais]
  · simp [unleash, hg, hm, hs, allGremlins, allMogwais]
  · have hlen : ¬h2.gremlins.length = 0 := by
      simpa [List.length_eq_zero] using hg2
    by_cases hm2 : h2.mogwais.length = 0 <;>
      by_cases hs2 : h2.strategies.length = 0 <;>
        simp [unleash, hlen, hm2, hs2, allGremlins, allMogwais]

/-- Witness for C5: an empty horde gets the full catalogs and the
distribution strategy; a horde with one registered gremlin keeps exactly
that gremlin. -/
theorem unleash_defaults_witness :
    (unleash ⟨[], [], [], [], []⟩).1.gremlins = speciesCatalog
      ∧ (unleash ⟨[], [], [], [], []⟩).1.mogwais = mogwaisCatalog
      ∧ (unleash ⟨[], [], [], [], []⟩).1.strategies
          = [StratTag.distributionS]
      ∧ (unleash ⟨[⟨"myGremlin", none⟩], [], [], [], []⟩).1.gremlins
          = [⟨"myGremlin", none⟩] :=
  unleash_defaults ⟨[], [], [], [], []⟩ ⟨[⟨"myGremlin", none⟩], [], [], [], []⟩
    rfl rfl rfl (by decide)

/-- A horde with one gremlin, one mogwai exposing `cleanUp`, one custom
strategy and one explicit after-callback. -/
def c1Horde : Horde :=
  { gremlins := [⟨"g", none⟩], mogwais := [⟨"m", some "mCleanUp"⟩],
    strategies := [StratTag.custom "s"], beforeCallbacks := [],
    afterCallbacks := ["a"] }

/-- C1 evaluated at the failing input: on the first `unleash` the
teardown list is the explicit after-callback followed by the mogwai's
cleanup, once each — but the cleanup has been pushed into the horde's
own after-callback registry, so a second `unleash` of the same horde
builds a teardown list that invokes the same cleanup twice in one run,
violating the at-most-once-per-run invariant. -/
theorem unleash_cleanup_duplicated :
    (unleash c1Horde).2.teardownList = ["a", "mCleanUp"]
      ∧ (unleash c1Horde).1.afterCallbacks = ["a", "mCleanUp"]
      ∧ (unleash (unleash c1Horde).1).2.teardownList
          = ["a", "mCleanUp", "mCleanUp"]
      ∧ ((unleash (unleash c1Horde).1).2.teardownList.count "mCleanUp")
          = 2 := by
  decide

end Gremlins
